import Mathlib

/-!
Verification development for the injectbook chapter-extraction pipeline
(`src/parser.ts`, current revision).

JavaScript strings are modelled as `List Char` (`Str`).  Each definition in
this file is a direct translation of the corresponding TypeScript function;
regular-expression operations are translated into explicit, deterministic
character scanners whose behaviour matches the JS regex engine on the
patterns actually used by the source (each of those patterns is
backtracking-free after a short case analysis, noted at each scanner).

External collaborators that the source delegates to are taken as parameters:
the HTML-to-markdown renderer (`nhm.translate`), the zip-entry loader, the
Unicode NFKD normalizer used by `slugify`, and the XML/HTML parsers (whose
already-parsed output shapes are taken as input structures).
-/

set_option maxRecDepth 20000
set_option maxHeartbeats 1000000

namespace Injectbook

/-- JavaScript strings, modelled as lists of characters. -/
abbrev Str := List Char

/-- The JavaScript `\s` character class (WhiteSpace ∪ LineTerminator),
also the set of characters removed by `String.prototype.trim`. -/
def jsWs (c : Char) : Bool :=
  c.toNat == 32 || c.toNat == 9 || c.toNat == 10 || c.toNat == 13 ||
  c.toNat == 11 || c.toNat == 12 ||
  c.toNat == 0xa0 || c.toNat == 0x1680 ||
  (0x2000 ≤ c.toNat && c.toNat ≤ 0x200a) ||
  c.toNat == 0x2028 || c.toNat == 0x2029 ||
  c.toNat == 0x202f || c.toNat == 0x205f || c.toNat == 0x3000 || c.toNat == 0xfeff

/-- JavaScript line terminators (the characters that `.` does not match and
that `^` and `$` recognise in multiline mode). -/
def lineTerm (c : Char) : Bool :=
  c.toNat == 10 || c.toNat == 13 || c.toNat == 0x2028 || c.toNat == 0x2029

def isDigitChar (c : Char) : Bool := 48 ≤ c.toNat && c.toNat ≤ 57

def isLowerAlpha (c : Char) : Bool := 97 ≤ c.toNat && c.toNat ≤ 122

def isUpperAlpha (c : Char) : Bool := 65 ≤ c.toNat && c.toNat ≤ 90

def isAsciiLetter (c : Char) : Bool := isLowerAlpha c || isUpperAlpha c

/-- The regex word-character class `\w` = `[A-Za-z0-9_]`, used by `\b`. -/
def isWordChar (c : Char) : Bool := isAsciiLetter c || isDigitChar c || c.toNat == 95

/-- Model of `String.prototype.toLowerCase`.  Exact on ASCII; non-ASCII
characters are left unchanged (no claim in this development depends on the
non-ASCII simple case mappings). -/
def jsToLower (c : Char) : Char :=
  if 65 ≤ c.toNat && c.toNat ≤ 90 then Char.ofNat (c.toNat + 32) else c

/-- `String.prototype.trim`. -/
def jsTrim (l : Str) : Str :=
  ((l.dropWhile jsWs).reverse.dropWhile jsWs).reverse

/-- `value.replace(\s+ → repl)` for a single replacement character: each
maximal run of whitespace becomes one `repl`.  The boolean state records
whether the previous character was part of a whitespace run. -/
def collapseWsWith (repl : Char) : Bool → Str → Str
  | _, [] => []
  | inRun, c :: rest =>
    if jsWs c then
      if inRun then collapseWsWith repl true rest
      else repl :: collapseWsWith repl true rest
    else c :: collapseWsWith repl false rest

/-- `value.replace([-]+ → "-")`: each maximal run of hyphens becomes one. -/
def collapseHyphens : Bool → Str → Str
  | _, [] => []
  | inRun, c :: rest =>
    if c == '-' then
      if inRun then collapseHyphens true rest
      else '-' :: collapseHyphens true rest
    else c :: collapseHyphens false rest

/-- `slugify` from `src/parser.ts`, with the host `normalize("NFKD")`
capability abstracted as `nfkd` (the claims instantiate it with `id`,
which agrees with NFKD on ASCII input). -/
def slugifyCore (nfkd : Str → Str) (value : Str) : Str :=
  let lowered := value.map jsToLower
  let normalized := nfkd lowered
  let filtered := normalized.filter fun c =>
    isLowerAlpha c || isDigitChar c || jsWs c || c == '-'
  let trimmed := jsTrim filtered
  let hyphenated := collapseWsWith '-' false trimmed
  let collapsed := collapseHyphens false hyphenated
  let sliced := collapsed.take 60
  if sliced = [] then "chapter".data else sliced

example : slugifyCore id " Chapter: One! ".data = "chapter-one".data := by decide

/-- Characters that can appear in a `slugify` result. -/
def slugOutChar (c : Char) : Bool := isLowerAlpha c || isDigitChar c || c == '-'

/-- `true` when the list contains no two adjacent hyphens. -/
def noDoubleHyphen : Str → Bool
  | [] => true
  | [_] => true
  | c :: d :: rest => !(c == '-' && d == '-') && noDoubleHyphen (d :: rest)

/-- `true` when the list is empty or does not start with a hyphen. -/
def headNotHyphen : Str → Bool
  | [] => true
  | c :: _ => !(c == '-')

section SlugifyLemmas

theorem mem_of_mem_jsTrim {c : Char} {l : Str} (h : c ∈ jsTrim l) : c ∈ l := by
  unfold jsTrim at h
  rw [List.mem_reverse] at h
  have h2 := List.Sublist.mem h (List.dropWhile_sublist jsWs)
  rw [List.mem_reverse] at h2
  exact List.Sublist.mem h2 (List.dropWhile_sublist jsWs)

theorem mem_collapseWsWith {repl c : Char} :
    ∀ (b : Bool) (l : Str), c ∈ collapseWsWith repl b l →
      c = repl ∨ (c ∈ l ∧ jsWs c = false) := by
  intro b l
  induction l generalizing b with
  | nil => intro h; simp [collapseWsWith] at h
  | cons a rest ih =>
    intro h
    rcases ha : jsWs a with _ | _
    · simp only [collapseWsWith, ha, Bool.false_eq_true, if_false, List.mem_cons] at h
      rcases h with h | h
      · subst h
        exact Or.inr ⟨List.mem_cons_self _ _, ha⟩
      · rcases ih false h with h1 | ⟨h2, h3⟩
        · exact Or.inl h1
        · exact Or.inr ⟨List.mem_cons_of_mem _ h2, h3⟩
    · have h' : c = repl ∨ c ∈ collapseWsWith repl true rest := by
        cases b with
        | true => exact Or.inr (by simpa [collapseWsWith, ha] using h)
        | false =>
          simp only [collapseWsWith, ha, if_true, Bool.false_eq_true, if_false,
            List.mem_cons] at h
          exact h
      rcases h' with h1 | h2
      · exact Or.inl h1
      · rcases ih true h2 with h1 | ⟨h2', h3⟩
        · exact Or.inl h1
        · exact Or.inr ⟨List.mem_cons_of_mem _ h2', h3⟩

theorem mem_collapseHyphens {c : Char} :
    ∀ (b : Bool) (l : Str), c ∈ collapseHyphens b l → c = '-' ∨ c ∈ l := by
  intro b l
  induction l generalizing b with
  | nil => intro h; simp [collapseHyphens] at h
  | cons a rest ih =>
    intro h
    rcases ha : a == '-' with _ | _
    · simp only [collapseHyphens, ha, Bool.false_eq_true, if_false, List.mem_cons] at h
      rcases h with h | h
      · exact Or.inr (h ▸ List.mem_cons_self _ _)
      · rcases ih false h with h1 | h2
        · exact Or.inl h1
        · exact Or.inr (List.mem_cons_of_mem _ h2)
    · have h' : c = '-' ∨ c ∈ collapseHyphens true rest := by
        cases b with
        | true => exact Or.inr (by simpa [collapseHyphens, ha] using h)
        | false =>
          simp only [collapseHyphens, ha, if_true, Bool.false_eq_true, if_false,
            List.mem_cons] at h
          rcases h with h | h
          · exact Or.inl h
          · exact Or.inr h
      rcases h' with h1 | h2
      · exact Or.inl h1
      · rcases ih true h2 with h1 | h3
        · exact Or.inl h1
        · exact Or.inr (List.mem_cons_of_mem _ h3)

theorem slugOutChar_of_slugify {nfkd : Str → Str} {s : Str} :
    ∀ c ∈ slugifyCore nfkd s, slugOutChar c = true := by
  intro c hc
  simp only [slugifyCore] at hc
  split at hc
  · simp only [List.mem_cons, List.not_mem_nil, or_false] at hc
    rcases hc with h|h|h|h|h|h|h <;> subst h <;> decide
  · have hc2 := List.mem_of_mem_take hc
    rcases mem_collapseHyphens _ _ hc2 with h1 | h2
    · subst h1; decide
    · rcases mem_collapseWsWith _ _ h2 with h3 | ⟨h4, h5⟩
      · subst h3; decide
      · have h6 := mem_of_mem_jsTrim h4
        have h7 := (List.mem_filter.mp h6).2
        simp only [Bool.or_eq_true] at h7
        rcases h7 with ((ha | hb) | hw) | hh
        · simp [slugOutChar, ha]
        · simp [slugOutChar, hb]
        · rw [hw] at h5; cases h5
        · simp [slugOutChar, hh]

theorem slugify_ne_nil {nfkd : Str → Str} {s : Str} : slugifyCore nfkd s ≠ [] := by
  simp only [slugifyCore]
  split
  · decide
  · assumption

theorem noDoubleHyphen_cons {c : Char} {l : Str} :
    noDoubleHyphen (c :: l) =
      ((match l with | [] => true | d :: _ => !(c == '-' && d == '-')) &&
        noDoubleHyphen l) := by
  cases l <;> simp [noDoubleHyphen]

theorem collapseHyphens_noDouble :
    ∀ l : Str, noDoubleHyphen (collapseHyphens false l) = true ∧
      (noDoubleHyphen (collapseHyphens true l) = true ∧
        headNotHyphen (collapseHyphens true l) = true) := by
  intro l
  induction l with
  | nil => exact ⟨rfl, rfl, rfl⟩
  | cons a rest ih =>
    obtain ⟨ihf, iht, ihh⟩ := ih
    by_cases ha : a == '-'
    · have e1 : collapseHyphens false (a :: rest) = '-' :: collapseHyphens true rest := by
        simp [collapseHyphens, ha]
      have e2 : collapseHyphens true (a :: rest) = collapseHyphens true rest := by
        simp [collapseHyphens, ha]
      refine ⟨?_, by rw [e2]; exact iht, by rw [e2]; exact ihh⟩
      rw [e1, noDoubleHyphen_cons]
      rcases hm : collapseHyphens true rest with _ | ⟨d, t⟩
      · decide
      · rw [hm] at iht ihh
        simp only [headNotHyphen] at ihh
        simp [iht, ihh]
    · have e1 : collapseHyphens false (a :: rest) = a :: collapseHyphens false rest := by
        simp [collapseHyphens, ha]
      have e2 : collapseHyphens true (a :: rest) = a :: collapseHyphens false rest := by
        simp [collapseHyphens, ha]
      have key : noDoubleHyphen (a :: collapseHyphens false rest) = true := by
        rw [noDoubleHyphen_cons]
        rcases hm : collapseHyphens false rest with _ | ⟨d, t⟩
        · simp [noDoubleHyphen]
        · rw [hm] at ihf
          simp [ihf, ha]
      exact ⟨by rw [e1]; exact key, by rw [e2]; exact key,
        by rw [e2]; simp [headNotHyphen, ha]⟩

theorem collapseHyphens_id :
    ∀ l : Str, (noDoubleHyphen l = true → collapseHyphens false l = l) ∧
      (noDoubleHyphen l = true → headNotHyphen l = true → collapseHyphens true l = l) := by
  intro l
  induction l with
  | nil => exact ⟨fun _ => rfl, fun _ _ => rfl⟩
  | cons a rest ih =>
    obtain ⟨ihf, iht⟩ := ih
    constructor
    · intro hnd
      rw [noDoubleHyphen_cons] at hnd
      simp only [Bool.and_eq_true] at hnd
      by_cases ha : a == '-'
      · have hrest : headNotHyphen rest = true := by
          rcases rest with _ | ⟨d, t⟩
          · rfl
          · simp only [headNotHyphen]
            have h1 := hnd.1
            simp only [ha, Bool.true_and] at h1
            simpa using h1
        have ha' : a = '-' := by simpa using ha
        simp only [collapseHyphens, ha, if_true, Bool.false_eq_true, if_false]
        rw [iht hnd.2 hrest, ha']
      · have ha' : (a == '-') = false := by simpa using ha
        simp only [collapseHyphens, ha', Bool.false_eq_true, if_false]
        rw [ihf hnd.2]
    · intro hnd hh
      simp only [headNotHyphen] at hh
      have ha : (a == '-') = false := by simpa using hh
      simp only [collapseHyphens, ha, Bool.false_eq_true, if_false]
      rw [noDoubleHyphen_cons] at hnd
      simp only [Bool.and_eq_true] at hnd
      rw [ihf hnd.2]

theorem noDoubleHyphen_take :
    ∀ (l : Str) (n : Nat), noDoubleHyphen l = true → noDoubleHyphen (l.take n) = true := by
  intro l
  induction l with
  | nil => intro n _; simp [noDoubleHyphen]
  | cons a rest ih =>
    intro n h
    cases n with
    | zero => rfl
    | succ m =>
      rw [List.take_succ_cons]
      rw [noDoubleHyphen_cons] at h
      simp only [Bool.and_eq_true] at h
      have h2 := ih m h.2
      rw [noDoubleHyphen_cons]
      rcases rest with _ | ⟨d, t⟩
      · simp [noDoubleHyphen]
      · cases m with
        | zero => simp [noDoubleHyphen]
        | succ k =>
          rw [List.take_succ_cons]
          simp only [Bool.and_eq_true]
          refine ⟨h.1, ?_⟩
          rw [List.take_succ_cons] at h2
          exact h2

theorem slugify_noDouble {nfkd : Str → Str} {s : Str} :
    noDoubleHyphen (slugifyCore nfkd s) = true := by
  simp only [slugifyCore]
  split
  · decide
  · exact noDoubleHyphen_take _ 60 (collapseHyphens_noDouble _).1

theorem slugify_length_le {nfkd : Str → Str} {s : Str} :
    (slugifyCore nfkd s).length ≤ 60 := by
  simp only [slugifyCore]
  split
  · decide
  · exact List.length_take_le 60 _

theorem slugOut_facts {c : Char} (h : slugOutChar c = true) :
    (97 ≤ c.toNat ∧ c.toNat ≤ 122) ∨ (48 ≤ c.toNat ∧ c.toNat ≤ 57) ∨ c.toNat = 45 := by
  simp only [slugOutChar, isLowerAlpha, isDigitChar, Bool.or_eq_true, Bool.and_eq_true,
    decide_eq_true_eq] at h
  rcases h with (h | h) | h
  · exact Or.inl h
  · exact Or.inr (Or.inl h)
  · refine Or.inr (Or.inr ?_)
    have : c = '-' := by simpa using h
    subst this; rfl

theorem jsToLower_of_slugOut {c : Char} (h : slugOutChar c = true) : jsToLower c = c := by
  have hv := slugOut_facts h
  unfold jsToLower
  rw [if_neg]
  simp only [Bool.and_eq_true, decide_eq_true_eq, not_and]
  intro h1 h2
  rcases hv with ⟨a, b⟩ | ⟨a, b⟩ | a <;> omega

theorem jsWs_of_slugOut {c : Char} (h : slugOutChar c = true) : jsWs c = false := by
  have hv := slugOut_facts h
  rw [Bool.eq_false_iff]
  intro hws
  simp only [jsWs, Bool.or_eq_true, beq_iff_eq, Bool.and_eq_true, decide_eq_true_eq,
    or_assoc] at hws
  rcases hws with h1|h1|h1|h1|h1|h1|h1|h1|⟨h1,h1'⟩|h1|h1|h1|h1|h1|h1 <;>
    rcases hv with ⟨a, b⟩ | ⟨a, b⟩ | a <;> omega

theorem slugOut_ascii {c : Char} (h : slugOutChar c = true) : c.toNat < 128 := by
  rcases slugOut_facts h with ⟨a, b⟩ | ⟨a, b⟩ | a <;> omega

theorem dropWhile_eq_self_of_forall {p : Char → Bool} {l : Str}
    (h : ∀ c ∈ l, p c = false) : l.dropWhile p = l := by
  cases l with
  | nil => rfl
  | cons a rest =>
    rw [List.dropWhile_cons]
    rw [h a (List.mem_cons_self _ _)]
    simp

theorem jsTrim_eq_self_of_forall {l : Str} (h : ∀ c ∈ l, jsWs c = false) :
    jsTrim l = l := by
  unfold jsTrim
  rw [dropWhile_eq_self_of_forall h]
  rw [dropWhile_eq_self_of_forall (by intro c hc; exact h c (List.mem_reverse.mp hc))]
  exact List.reverse_reverse l

theorem collapseWsWith_eq_self_of_forall {repl : Char} {l : Str}
    (h : ∀ c ∈ l, jsWs c = false) : ∀ b, collapseWsWith repl b l = l := by
  induction l with
  | nil => intro b; rfl
  | cons a rest ih =>
    intro b
    have ha := h a (List.mem_cons_self _ _)
    simp only [collapseWsWith, ha, Bool.false_eq_true, if_false]
    rw [ih (fun c hc => h c (List.mem_cons_of_mem _ hc)) false]

theorem map_jsToLower_eq_self_of_forall {l : Str} (h : ∀ c ∈ l, slugOutChar c = true) :
    l.map jsToLower = l := by
  induction l with
  | nil => rfl
  | cons a rest ih =>
    simp only [List.map_cons]
    rw [jsToLower_of_slugOut (h a (List.mem_cons_self _ _)),
      ih (fun c hc => h c (List.mem_cons_of_mem _ hc))]

/-- Idempotence core: applying `slugify` to one of its own outputs is the
identity, provided `nfkd` is the identity on ASCII strings (which Unicode
NFKD is). -/
theorem slugify_idem {nfkd : Str → Str}
    (hn : ∀ l : Str, (∀ c ∈ l, c.toNat < 128) → nfkd l = l) (s : Str) :
    slugifyCore nfkd (slugifyCore nfkd s) = slugifyCore nfkd s := by
  set y := slugifyCore nfkd s with hy
  have hchars : ∀ c ∈ y, slugOutChar c = true := slugOutChar_of_slugify
  have hne : y ≠ [] := slugify_ne_nil
  have hnd : noDoubleHyphen y = true := slugify_noDouble
  have hlen : y.length ≤ 60 := slugify_length_le
  have hnws : ∀ c ∈ y, jsWs c = false := fun c hc => jsWs_of_slugOut (hchars c hc)
  conv_lhs => simp only [slugifyCore]
  rw [map_jsToLower_eq_self_of_forall hchars]
  rw [hn y (fun c hc => slugOut_ascii (hchars c hc))]
  rw [List.filter_eq_self.mpr (by
    intro c hc
    have := hchars c hc
    simp only [slugOutChar, Bool.or_eq_true] at this
    simp only [Bool.or_eq_true]
    rcases this with (h1 | h1) | h1
    · exact Or.inl (Or.inl (Or.inl h1))
    · exact Or.inl (Or.inl (Or.inr h1))
    · exact Or.inr h1)]
  rw [jsTrim_eq_self_of_forall hnws]
  rw [collapseWsWith_eq_self_of_forall hnws false]
  rw [(collapseHyphens_id y).1 hnd]
  rw [List.take_of_length_le hlen]
  rw [if_neg hne]

end SlugifyLemmas

/-! ### Word splitting and word counts -/

/-- Worker for `split(\s+)` followed by `.filter(Boolean)`: splits into the
maximal whitespace-free words.  `cur` is the current word, reversed. -/
def wordsAux (cur : Str) : Str → List Str
  | [] => if cur = [] then [] else [cur.reverse]
  | c :: rest =>
    if jsWs c then
      if cur = [] then wordsAux [] rest else cur.reverse :: wordsAux [] rest
    else wordsAux (c :: cur) rest

/-- `s.split(\s+).filter(Boolean)`. -/
def wordsOf (l : Str) : List Str := wordsAux [] l

/-- One replacement of `^---[\s\S]*?---` in multiline mode: find the scan
position of the second `---`.  Returns the remainder after it, or `none`
when no `---` occurs (the lazy quantifier stops at the first closer). -/
def afterTripleDash : Str → Option Str
  | '-' :: '-' :: '-' :: rest => some rest
  | _ :: rest => afterTripleDash rest
  | [] => none

/-- `markdown.replace(^---[\s\S]*?--- (m flag, no g flag), "")`: removes the
first line-start-anchored `--- ... ---` block.  `atLS` tracks whether the
scanner sits at a line start (`^` with the `m` flag matches there). -/
def stripFmGo : Bool → Str → Str
  | _, [] => []
  | atLS, '-' :: '-' :: '-' :: t =>
    if atLS then
      match afterTripleDash t with
      | some r => r
      | none => '-' :: stripFmGo false ('-' :: '-' :: t)
    else '-' :: stripFmGo false ('-' :: '-' :: t)
  | _, c :: rest => c :: stripFmGo (lineTerm c) rest

/-- `chapterWordCount` from `src/parser.ts`. -/
def chapterWordCount (markdown : Str) : Nat :=
  (wordsOf (jsTrim (stripFmGo true markdown))).length

example : chapterWordCount "Hello body text.".data = 3 := by decide
example : chapterWordCount "---\ntitle: x\n---\none two".data = 2 := by decide

/-! ### Markdown link stripping used by `cleanTitle`

The pattern `\[(.*?)\]\((.*?)\)` is matched by an explicit scanner.  The
lazy label group extends one character at a time until a `](` is found whose
`(` is closed by a `)` on the same line; `.` does not match line
terminators. -/

/-- Scan for the closing `)` of a link destination (no line terminators
allowed before it).  Returns (destination, remainder after the paren). -/
def findCloseParen : Str → Option (Str × Str)
  | [] => none
  | c :: rest =>
    if c == ')' then some ([], rest)
    else if lineTerm c then none
    else
      match findCloseParen rest with
      | some (d, r) => some (c :: d, r)
      | none => none

/-- Match the remainder of `\[(.*?)\]\((.*?)\)` given the scanner sits just
after the opening `[`.  Returns (label, remainder after the match). -/
def matchLinkBody : Str → Option (Str × Str)
  | ']' :: '(' :: rest =>
    (match findCloseParen rest with
     | some (_, r) => some ([], r)
     | none =>
       match matchLinkBody ('(' :: rest) with
       | some (lab, r) => some (']' :: lab, r)
       | none => none)
  | c :: rest =>
    if lineTerm c then none
    else
      match matchLinkBody rest with
      | some (lab, r) => some (c :: lab, r)
      | none => none
  | [] => none

/-- Global replacement of `!\[(.*?)\]\((.*?)\)` by the label.  The fuel is
consumed once per emitted chunk and every step consumes at least one input
character, so `l.length` fuel is always sufficient. -/
def stripImageLinksAux : Nat → Str → Str
  | 0, l => l
  | _ + 1, [] => []
  | fuel + 1, '!' :: '[' :: rest =>
    (match matchLinkBody rest with
     | some (lab, r) => lab ++ stripImageLinksAux fuel r
     | none => '!' :: stripImageLinksAux fuel ('[' :: rest))
  | fuel + 1, c :: rest => c :: stripImageLinksAux fuel rest

def stripImageLinks (l : Str) : Str := stripImageLinksAux l.length l

/-- Global replacement of `\[(.*?)\]\((.*?)\)` by the label. -/
def stripLinksAux : Nat → Str → Str
  | 0, l => l
  | _ + 1, [] => []
  | fuel + 1, '[' :: rest =>
    (match matchLinkBody rest with
     | some (lab, r) => lab ++ stripLinksAux fuel r
     | none => '[' :: stripLinksAux fuel rest)
  | fuel + 1, c :: rest => c :: stripLinksAux fuel rest

def stripLinks (l : Str) : Str := stripLinksAux l.length l

/-- `stripMarkdownTitleDecorations` from `src/parser.ts`: remove emphasis
and code markers, then collapse image links and links to their labels. -/
def stripMarkdownTitleDecorations (value : Str) : Str :=
  stripLinks (stripImageLinks (value.filter fun c =>
    !(c == '*' || c == '_' || c == Char.ofNat 96 || c == '~')))

/-- The leader-dot class `[.•·•]` of `cleanTitle` (the bullet
appears twice in the source class; the set is {'.', U+2022, U+00B7}). -/
def isLeaderDot (c : Char) : Bool :=
  c.toNat == 46 || c.toNat == 8226 || c.toNat == 183

/-- One anchored replacement of `\s*[leader dots]{3,}\s*\d+\s*$` by `""`.
Matching a suffix of this shape is equivalent to stripping, from the right:
whitespace, then at least one digit, then whitespace, then at least three
leader dots, then whitespace (the character classes are pairwise disjoint,
so the greedy runs are forced and no backtracking can occur). -/
def stripLeaderDots (l : Str) : Str :=
  let r := l.reverse
  let r1 := r.dropWhile jsWs
  let ds := r1.takeWhile isDigitChar
  if ds = [] then l
  else
    let r2 := (r1.dropWhile isDigitChar).dropWhile jsWs
    let dots := r2.takeWhile isLeaderDot
    if dots.length < 3 then l
    else ((r2.dropWhile isLeaderDot).dropWhile jsWs).reverse

/-- One anchored replacement of `\[\d+\]\s*$` by `""`. -/
def stripTrailingFootnote (l : Str) : Str :=
  let r := l.reverse
  let r1 := r.dropWhile jsWs
  match r1 with
  | ']' :: r2 =>
    let ds := r2.takeWhile isDigitChar
    if ds = [] then l
    else
      (match r2.dropWhile isDigitChar with
       | '[' :: r3 => r3.reverse
       | _ => l)
  | _ => l

/-- `cleanTitle` from `src/parser.ts` (current revision). -/
def cleanTitle (value : Str) : Str :=
  jsTrim (collapseWsWith ' ' false
    (stripTrailingFootnote (stripLeaderDots (stripMarkdownTitleDecorations value))))

example : cleanTitle "NCX Title [123]".data = "NCX Title".data := by decide
example : cleanTitle "*Intro* .... 23".data = "Intro".data := by decide
example : cleanTitle "See [link](#x) now".data = "See link now".data := by decide
example : cleanTitle "![alt](img.png)".data = "alt".data := by decide
example : cleanTitle "  Spaced   out  ".data = "Spaced out".data := by decide

/-! ### `normalizeChapterTitle` -/

/-- Case-insensitive literal match: if `l` starts with the (lowercase)
pattern `pat` up to ASCII case, return the remainder. -/
def ciStarts : Str → Str → Option Str
  | [], l => some l
  | _ :: _, [] => none
  | p :: ps, c :: cs => if jsToLower c == p then ciStarts ps cs else none

/-- The test `^chapter\s+(\d+)\b(.*)$` (case-insensitive, no m flag) as a
deterministic parser: the greedy runs are forced because the relevant
character classes are disjoint, `\b` after a digit requires the next
character to be a non-word character (or the end), and `(.*)$` requires the
remainder to contain no line terminators. -/
def parseChapterMatch (cleaned : Str) : Option (Str × Str) :=
  match ciStarts "chapter".data cleaned with
  | none => none
  | some r1 =>
    if r1.takeWhile jsWs = [] then none
    else
      let r2 := r1.dropWhile jsWs
      let ds := r2.takeWhile isDigitChar
      if ds = [] then none
      else
        let r3 := r2.dropWhile isDigitChar
        if (match r3.head? with | some c => isWordChar c | none => false) then none
        else if r3.any lineTerm then none
        else some (ds, r3)

/-- One replacement of `^[:.\-]\s*` by `""`. -/
def stripLeadingPunctWs (l : Str) : Str :=
  match l with
  | c :: rest => if c == ':' || c == '.' || c == '-' then rest.dropWhile jsWs else l
  | [] => []

/-- The test `[.?!]\s+[A-Z]`: some sentence punctuation, at least one
whitespace character, and then (after the whitespace run) an ASCII capital.
`[A-Z]` is not whitespace, so the first non-whitespace character after the
punctuation decides the match. -/
def sentenceBreakTest : Str → Bool
  | [] => false
  | c :: rest =>
    ((c == '.' || c == '?' || c == '!') &&
      (match rest with
       | d :: _ =>
         jsWs d &&
           (match rest.dropWhile jsWs with
            | e :: _ => isUpperAlpha e
            | [] => false)
       | [] => false)) || sentenceBreakTest rest

/-- `(cleaned.match([,;:] g) || []).length`. -/
def countPunct (l : Str) : Nat :=
  l.countP fun c => c == ',' || c == ';' || c == ':'

/-- The body of `normalizeChapterTitle` applied to the already-cleaned
candidate. -/
def normalizeCleanedTitle (cleaned fallback : Str) : Str :=
  if cleaned = [] then fallback
  else if cleaned.all isDigitChar then "Chapter ".data ++ cleaned
  else
    match parseChapterMatch cleaned with
    | some (num, rest) =>
      let suffix := jsTrim rest
      if suffix = [] then "Chapter ".data ++ num
      else
        let ns := jsTrim (stripLeadingPunctWs suffix)
        if ns = [] then "Chapter ".data ++ num
        else "Chapter ".data ++ num ++ ": ".data ++ ns
    | none =>
      let words := (wordsOf cleaned).length
      if 95 < cleaned.length ∨ 15 < words then fallback
      else if sentenceBreakTest cleaned = true ∧ 8 < words then fallback
      else if 12 < words ∧ 2 ≤ countPunct cleaned then fallback
      else cleaned

/-- `normalizeChapterTitle` from `src/parser.ts`. -/
def normalizeChapterTitle (rawTitle fallback : Str) : Str :=
  normalizeCleanedTitle (cleanTitle rawTitle) fallback

example : normalizeChapterTitle "12".data "FB".data = "Chapter 12".data := by decide
example : normalizeChapterTitle "chapter 3 - the start".data "FB".data =
    "Chapter 3: the start".data := by decide
example : normalizeChapterTitle "CHAPTER 4".data "FB".data = "Chapter 4".data := by decide
example : normalizeChapterTitle "".data "FB".data = "FB".data := by decide
example : normalizeChapterTitle "A Perfectly Fine Title".data "FB".data =
    "A Perfectly Fine Title".data := by decide
example : normalizeChapterTitle
    "one two three four five six seven eight nine ten eleven twelve thirteen fourteen fifteen sixteen".data
    "FB".data = "FB".data := by decide
example : normalizeChapterTitle "It ended. Then Again it started here now okay".data
    "FB".data = "FB".data := by decide

/-! ### Note-density detection (`isLikelyNoteDenseMarkdown`) -/

/-- The roman-numeral character class `[ivxlcdm]` under the `i` flag. -/
def isRomanChar (c : Char) : Bool :=
  let n := (jsToLower c).toNat
  n == 105 || n == 118 || n == 120 || n == 108 || n == 99 || n == 100 || n == 109

/-- The citation-marker alternation `\[\d+\]|\d+\\?[.)]|[ivxlcdm]+[.)]`
(`i` flag).  Returns the remainder after the marker.  The alternatives are
distinguished by the first character and each greedy run is forced (the
character after a maximal digit or roman run can never re-enter the same
class), so the scan is deterministic. -/
def tryMarker : Str → Option Str
  | '[' :: r1 =>
    (let ds := r1.takeWhile isDigitChar
     if ds = [] then none
     else
       match r1.dropWhile isDigitChar with
       | ']' :: r2 => some r2
       | _ => none)
  | l =>
    let ds := l.takeWhile isDigitChar
    if ds ≠ [] then
      match l.dropWhile isDigitChar with
      | '\\' :: c :: r => if c == '.' || c == ')' then some r else none
      | c :: r => if c == '.' || c == ')' then some r else none
      | [] => none
    else
      let rs := l.takeWhile isRomanChar
      if rs = [] then none
      else
        match l.dropWhile isRomanChar with
        | c :: r => if c == '.' || c == ')' then some r else none
        | [] => none

/-- The trailing `\s+[A-Za-z]` of the inline-note pattern: at least one
whitespace character and then — since `[A-Za-z]` is never whitespace — the
first non-whitespace character must be an ASCII letter.  Returns the
remainder after the letter (the regex `lastIndex` position). -/
def finishWsLetter (l : Str) : Option Str :=
  if l.takeWhile jsWs = [] then none
  else
    match l.dropWhile jsWs with
    | c :: r => if isAsciiLetter c then some r else none
    | [] => none

/-- Count the non-overlapping matches of
`(?:^|\s)(?:\[\d+\]|\d+\\?[.)]|[ivxlcdm]+[.)])\s+[A-Za-z]` with the `gim`
flags: at each position first try the zero-width `^` alternative (at line
starts), then the `\s` alternative; after a match the scan resumes just
after the matched letter.  Every step consumes at least one character, so
`l.length + 1` fuel is always sufficient. -/
def countInlineAux : Nat → Bool → Str → Nat
  | 0, _, _ => 0
  | _ + 1, _, [] => 0
  | fuel + 1, atLS, c :: rest =>
    match
      (if atLS then
        match tryMarker (c :: rest) with
        | some r1 => finishWsLetter r1
        | none => none
      else none) with
    | some r => 1 + countInlineAux fuel false r
    | none =>
      match
        (if jsWs c then
          match tryMarker rest with
          | some r1 => finishWsLetter r1
          | none => none
        else none) with
      | some r => 1 + countInlineAux fuel false r
      | none => countInlineAux fuel (lineTerm c) rest

def inlineNoteMatchCount (md : Str) : Nat := countInlineAux (md.length + 1) true md

example : inlineNoteMatchCount "[1] alpha [2] beta [3] gamma".data = 3 := by decide
example : inlineNoteMatchCount "1. alpha\nii) beta".data = 2 := by decide
example : inlineNoteMatchCount "1 a\n1 a".data = 0 := by decide

/-- Per-line test `^(?:\[\d+\]|\d+\\?[.)]|[ivxlcdm]+[.)])\s+` (`i` flag). -/
def noteLineFirstAlt (l : Str) : Bool :=
  match tryMarker l with
  | some r => !(r.takeWhile jsWs).isEmpty
  | none => false

/-- Per-line test `^\d{1,3}\s+[A-Za-z]`: one to three leading digits (a
longer digit run cannot match: shortening the greedy `\d{1,3}` still leaves
a digit where `\s` is required), then whitespace, then — as the first
non-whitespace character — an ASCII letter. -/
def noteLineSecondAlt (l : Str) : Bool :=
  let ds := l.takeWhile isDigitChar
  if ds.length = 0 ∨ 3 < ds.length then false
  else
    match l.dropWhile isDigitChar with
    | c :: r =>
      jsWs c &&
        (match (c :: r).dropWhile jsWs with
         | e :: _ => isAsciiLetter e
         | [] => false)
    | [] => false

def noteLikeLine (l : Str) : Bool := noteLineFirstAlt l || noteLineSecondAlt l

example : noteLikeLine "12. Some note".data = true := by decide
example : noteLikeLine "1 a".data = true := by decide
example : noteLikeLine "xiv) note".data = true := by decide
example : noteLikeLine "Plain prose here".data = false := by decide
example : noteLikeLine "1234 too many digits".data = false := by decide

/-- `markdown.split("\n")` (keeps empty pieces, like the JS split on a
plain string). -/
def splitOnNewlineAux (cur : Str) : Str → List Str
  | [] => [cur.reverse]
  | c :: rest =>
    if c == '\n' then cur.reverse :: splitOnNewlineAux [] rest
    else splitOnNewlineAux (c :: cur) rest

def splitOnNewline (l : Str) : List Str := splitOnNewlineAux [] l

/-- The first 350 trimmed non-blank lines examined by the density test. -/
def noteDenseLines (md : Str) : List Str :=
  (((splitOnNewline md).map jsTrim).filter fun l => !l.isEmpty).take 350

/-- `isLikelyNoteDenseMarkdown` from `src/parser.ts`.

The source compares `noteLikeLines / lines.length >= 0.33` in IEEE double
arithmetic.  With `lines.length ≤ 350`, the closest a rational
`k/n ≠ 33/100` can come to `0.33` is more than `1/35000`, which is far
larger than the double-rounding error of either side, so the float
comparison is exactly the rational comparison `100 * k ≥ 33 * n`. -/
def isLikelyNoteDenseMarkdown (markdown : Str) : Bool :=
  if 30 ≤ inlineNoteMatchCount markdown ∧ chapterWordCount markdown ≤ 15000 then true
  else
    let lines := noteDenseLines markdown
    if lines.length < 40 then false
    else
      let noteLikeLines := lines.countP noteLikeLine
      decide (33 * lines.length ≤ 100 * noteLikeLines)

/-! ### Boilerplate classification -/

/-- `Chapter` from `src/types.ts`. -/
structure Chapter where
  index : Nat
  title : Str
  slug : Str
  sourceFile : Str
  markdown : Str
  wordCount : Nat
deriving DecidableEq

/-- `ParseOptions` from `src/parser.ts`. -/
structure ParseOptions where
  stripImages : Bool
  stripInternalLinks : Bool
  filterBoilerplate : Bool
  maxChapterWords : Nat
  minSectionWords : Nat
deriving DecidableEq

def DEFAULT_PARSE_OPTIONS : ParseOptions :=
  { stripImages := true
    stripInternalLinks := true
    filterBoilerplate := true
    maxChapterWords := 15000
    minSectionWords := 300 }

/-- Character-wise ASCII case-insensitive equality (the `i` flag on a
literal alternative). -/
def ciEq : Str → Str → Bool
  | [], [] => true
  | _ :: _, [] => false
  | [], _ :: _ => false
  | c :: cs, d :: ds => jsToLower c == jsToLower d && ciEq cs ds

/-- An anchored `^\s*(p₁|p₂|…)\s*$` test with the `i` flag: the phrases
start and end with non-whitespace, so the test is case-insensitive equality
after trimming. -/
def anchoredCiAny (phrases : List Str) (l : Str) : Bool :=
  phrases.any fun p => ciEq (jsTrim l) p

/-- Case-insensitive "starts with" (Bool form). -/
def ciLeads : Str → Str → Bool
  | [], _ => true
  | _ :: _, [] => false
  | p :: ps, c :: cs => jsToLower p == jsToLower c && ciLeads ps cs

/-- Case-insensitive substring test (an unanchored literal with `i`). -/
def ciContains (pat : Str) : Str → Bool
  | [] => ciLeads pat []
  | l@(_ :: rest) => ciLeads pat l || ciContains pat rest

/-- `w` occurs at the head with a `\b` boundary after it (the next
character, if any, is a non-word character). -/
def startsWithThenNonWord : Str → Str → Bool
  | [], l => (match l with | [] => true | c :: _ => !isWordChar c)
  | _ :: _, [] => false
  | p :: ps, c :: cs => p == c && startsWithThenNonWord ps cs

/-- Scan for `\bw\b`: at a position whose previous character is not a word
character (or at the start), the word matches with a boundary after it. -/
def hasWordScan (w : Str) : Bool → Str → Bool
  | _, [] => false
  | prevWord, c :: rest =>
    (!prevWord && startsWithThenNonWord w (c :: rest)) || hasWordScan w (isWordChar c) rest

/-- The override test `\b(index|glossary)\b` applied to the lowercased
normalized title. -/
def hasIndexOrGlossaryWord (l : Str) : Bool :=
  hasWordScan "index".data false l || hasWordScan "glossary".data false l

example : hasIndexOrGlossaryWord "index".data = true := by decide
example : hasIndexOrGlossaryWord "index of names".data = true := by decide
example : hasIndexOrGlossaryWord "reindex".data = false := by decide
example : hasIndexOrGlossaryWord "indexes".data = false := by decide
example : hasIndexOrGlossaryWord "a glossary, annotated".data = true := by decide

/-- `BoilerplateRule` from `src/parser.ts`; `hard` models
`kind: "hard" | "soft"`. -/
structure BoilerplateRule where
  id : Str
  hard : Bool
  titlePattern : Option (Str → Bool)
  contentPattern : Option (Str → Bool)
  predicate : Option (Chapter → Bool)
  maxWords : Option Nat

def frontMatterPhrases : List Str :=
  ["cover".data, "title page".data, "contents".data, "table of contents".data,
   "about the author".data, "by the same author".data, "copyright page".data]

def backMatterPhrases : List Str :=
  ["notes".data, "endnotes".data, "index".data, "bibliography".data, "references".data]

def legalPhrases : List Str :=
  ["project gutenberg".data, "gutenberg license".data, "full license".data,
   "terms of use".data, "copyright".data, "all rights reserved".data]

def BOILERPLATE_RULES : List BoilerplateRule :=
  [{ id := "title-front-matter".data
     hard := true
     titlePattern := some (anchoredCiAny frontMatterPhrases)
     contentPattern := none
     predicate := none
     maxWords := none },
   { id := "title-back-matter".data
     hard := true
     titlePattern := some (anchoredCiAny backMatterPhrases)
     contentPattern := none
     predicate := none
     maxWords := none },
   { id := "legal-license".data
     hard := false
     titlePattern := none
     contentPattern := some fun sample => legalPhrases.any fun p => ciContains p sample
     predicate := none
     maxWords := some 4000 },
   { id := "notes-content-density".data
     hard := true
     titlePattern := none
     contentPattern := none
     predicate := some fun ch => isLikelyNoteDenseMarkdown ch.markdown
     maxWords := none }]

/-- The rule-evaluation loop of `isBoilerplateChapter`. -/
def boilerplateRulesLoop (ch : Chapter) (normalizedTitle sample : Str) :
    List BoilerplateRule → Bool
  | [] => false
  | r :: rest =>
    let titleMatch := match r.titlePattern with | some p => p normalizedTitle | none => false
    let contentMatch := match r.contentPattern with | some p => p sample | none => false
    let predicateMatch := match r.predicate with | some p => p ch | none => false
    let withinWordLimit : Bool :=
      match r.maxWords with | some m => decide (ch.wordCount ≤ m) | none => true
    if !titleMatch && !contentMatch && !predicateMatch then
      boilerplateRulesLoop ch normalizedTitle sample rest
    else if r.hard then true
    else if withinWordLimit then true
    else boilerplateRulesLoop ch normalizedTitle sample rest

/-- `isBoilerplateChapter` from `src/parser.ts`. -/
def isBoilerplateChapter (ch : Chapter) (opts : ParseOptions) : Bool :=
  if !opts.filterBoilerplate then false
  else
    let normalizedTitle := cleanTitle ch.title
    let ntl := normalizedTitle.map jsToLower
    if hasIndexOrGlossaryWord ntl then false
    else
      let sample := ntl ++ '\n' :: (ch.markdown.take 2500).map jsToLower
      boilerplateRulesLoop ch normalizedTitle sample BOILERPLATE_RULES

example : isBoilerplateChapter
    ⟨1, "Table of Contents".data, "s".data, "f".data, "body".data, 1⟩
    DEFAULT_PARSE_OPTIONS = true := by decide
example : isBoilerplateChapter
    ⟨1, "Index".data, "s".data, "f".data, "a list\nof things".data, 3⟩
    DEFAULT_PARSE_OPTIONS = false := by decide
example : isBoilerplateChapter
    ⟨1, "The Essay".data, "s".data, "f".data, "good text here".data, 3⟩
    DEFAULT_PARSE_OPTIONS = false := by decide
example : isBoilerplateChapter
    ⟨1, "Legal".data, "s".data, "f".data,
      "THE FULL PROJECT GUTENBERG LICENSE applies".data, 5⟩
    DEFAULT_PARSE_OPTIONS = true := by decide

/-! ### Chapter splitting -/

/-- Decimal digits of a natural number (the interpolation `${n}`). -/
def natDigitsAux : Nat → Nat → Str
  | 0, _ => []
  | fuel + 1, n =>
    if n < 10 then [Char.ofNat (48 + n)]
    else natDigitsAux fuel (n / 10) ++ [Char.ofNat (48 + n % 10)]

def natToStr (n : Nat) : Str := natDigitsAux (n + 1) n

example : natToStr 0 = "0".data := by decide
example : natToStr 1 = "1".data := by decide
example : natToStr 12 = "12".data := by decide
example : natToStr 305 = "305".data := by decide

/-- In the end-of-input case of `^#…\s+(.+)$`, the greedy `\s+` backs off
to the largest `k ≥ 1` whose following character is not a line terminator;
all characters after it in the run are line terminators, so the captured
group is exactly that single character.  Returns (k, group). -/
def backOffGroup (w : Str) : Option (Nat × Str) :=
  let tail1 := w.drop 1
  match tail1.reverse.dropWhile lineTerm with
  | [] => none
  | c :: ds => some ((c :: ds).length, [c])

/-- Match `^#{level}\s+(.+)$` (flags `gm`) at a line-start position.
`\s` may cross line terminators (it contains them), `.` may not, and `$`
is zero-width; when the whitespace run is not final, the greedy `\s+`
consumes it whole and the group is the following maximal
non-line-terminator run.  Returns (group, matched text, remainder). -/
def headingMatchAt (hashes : Str) (l : Str) : Option (Str × Str × Str) :=
  if hashes.isPrefixOf l then
    let r1 := l.drop hashes.length
    let w := r1.takeWhile jsWs
    if w = [] then none
    else
      let afterW := r1.dropWhile jsWs
      if afterW.isEmpty then
        match backOffGroup w with
        | some (k, g) => some (g, hashes ++ w.take k ++ g, w.drop (k + g.length))
        | none => none
      else
        let g := afterW.takeWhile fun c => !lineTerm c
        some (g, hashes ++ w ++ g, afterW.drop g.length)
  else none

/-- `matchAll` scan for the heading pattern, building one (group, chunk)
pair per match; a chunk runs from its match start to the next match start
(`slice(start, end)` in the source).  Text before the first match is
discarded.  After a match the scan resumes at the match end (`lastIndex`);
the character before that position is the group's last character, which is
never a line terminator, so the resumed position is never a line start.
Every step consumes at least one character, so `l.length + 1` fuel is
always sufficient. -/
def headingScanAux (hashes : Str) :
    Nat → Bool → Option (Str × Str) → Str → List (Str × Str)
  | 0, _, cur, l =>
    (match cur with
     | some (g0, acc0) => [(g0, acc0.reverse ++ l)]
     | none => [])
  | _ + 1, _, cur, [] =>
    (match cur with
     | some (g0, acc0) => [(g0, acc0.reverse)]
     | none => [])
  | fuel + 1, atLS, cur, c :: rest =>
    match (if atLS then headingMatchAt hashes (c :: rest) else none) with
    | some (g, skipped, restAfter) =>
      (match cur with
       | some (g0, acc0) => [(g0, acc0.reverse)]
       | none => []) ++
        headingScanAux hashes fuel false (some (g, skipped.reverse)) restAfter
    | none =>
      headingScanAux hashes fuel (lineTerm c)
        (match cur with
         | some (g0, acc0) => some (g0, c :: acc0)
         | none => none) rest

/-- The section records produced by `splitMarkdownByHeading` — the
source's `{ title?: string; markdown: string }` (the optional title is
always assigned there, possibly as the empty string). -/
structure SplitSection where
  title : Str
  markdown : Str
deriving DecidableEq

/-- `splitMarkdownByHeading` from `src/parser.ts`. -/
def splitMarkdownByHeading (level : Nat) (markdown : Str) : List SplitSection :=
  let hashes : Str := List.replicate level '#'
  let found := headingScanAux hashes (markdown.length + 1) true none markdown
  if found.length < 2 then []
  else
    (found.map fun m => SplitSection.mk (cleanTitle (jsTrim m.1)) (jsTrim m.2)).filter
      fun s => !s.markdown.isEmpty

example : splitMarkdownByHeading 1 "# A\naaa\n\n# B\nbbb".data =
    [⟨"A".data, "# A\naaa".data⟩, ⟨"B".data, "# B\nbbb".data⟩] := by decide
example : splitMarkdownByHeading 1 "intro\n# Only One\nbody".data = [] := by decide
example : splitMarkdownByHeading 2 "## A\naaa\n## B\nbbb".data =
    [⟨"A".data, "## A\naaa".data⟩, ⟨"B".data, "## B\nbbb".data⟩] := by decide
example : splitMarkdownByHeading 1 "## A\nx\n## B\ny".data = [] := by decide

/-- `words.slice(i, i + max).join(" ")`. -/
def joinSep (sep : Str) : List Str → Str
  | [] => []
  | [x] => x
  | x :: rest => x ++ sep ++ joinSep sep rest

/-- `splitOversizedPlainBlock`'s slicing loop.  For `maxW = 0` the source
loops forever (`index += 0`); the fuel makes the model total there. -/
def splitOversizedAux (maxW : Nat) : Nat → List Str → List Str
  | 0, _ => []
  | _ + 1, [] => []
  | fuel + 1, ws =>
    let chunk := jsTrim (joinSep [' '] (ws.take maxW))
    (if chunk.isEmpty then [] else [chunk]) ++ splitOversizedAux maxW fuel (ws.drop maxW)

/-- `splitOversizedPlainBlock` from `src/parser.ts`. -/
def splitOversizedPlainBlock (block : Str) (maxW : Nat) : List Str :=
  let ws := wordsOf block
  splitOversizedAux maxW (ws.length + 1) ws

/-- `markdown.split(\n{2,})`: delimiters are maximal runs of two or more
newlines.  Fuel-driven because the run skip is not structural; every step
consumes at least one character. -/
def splitBlankAux (cur : Str) : Nat → Str → List Str
  | 0, l => [cur.reverse ++ l]
  | _ + 1, [] => [cur.reverse]
  | fuel + 1, '\n' :: '\n' :: rest =>
    cur.reverse :: splitBlankAux [] fuel (rest.dropWhile fun c => c == '\n')
  | fuel + 1, c :: rest => splitBlankAux (c :: cur) fuel rest

def splitOnBlankRuns (l : Str) : List Str := splitBlankAux [] (l.length + 1) l

/-- The accumulate-and-flush loop of `splitMarkdownByWordCount`.
`curRev` holds the current blocks in reverse; a flush joins them with a
blank line and trims. -/
def wordCountChunksGo (maxW : Nat) : List Str → List Str → Nat → List Str
  | [], curRev, _ =>
    if curRev.isEmpty then [] else [jsTrim (joinSep "\n\n".data curRev.reverse)]
  | b :: rest, curRev, curWords =>
    let bw := chapterWordCount b
    if (3 * maxW) / 2 < bw then
      (if curRev.isEmpty then [] else [jsTrim (joinSep "\n\n".data curRev.reverse)]) ++
        splitOversizedPlainBlock b maxW ++ wordCountChunksGo maxW rest [] 0
    else if 0 < curWords ∧ maxW < curWords + bw then
      (if curRev.isEmpty then [] else [jsTrim (joinSep "\n\n".data curRev.reverse)]) ++
        wordCountChunksGo maxW rest [b] bw
    else wordCountChunksGo maxW rest (b :: curRev) (curWords + bw)

/-- `splitMarkdownByWordCount` from `src/parser.ts`. -/
def splitMarkdownByWordCount (markdown : Str) (maxW : Nat) : List Str :=
  let paragraphBlocks := ((splitOnBlankRuns markdown).map jsTrim).filter fun b => !b.isEmpty
  if paragraphBlocks.isEmpty then []
  else (wordCountChunksGo maxW paragraphBlocks [] 0).filter fun c => !c.isEmpty

example : splitMarkdownByWordCount "one two three\n\nfour five six\n\nseven".data 4 =
    ["one two three".data, "four five six\n\nseven".data] := by decide

/-- Backward merge of one undersized section (`merged[index - 1].markdown
= prev + "\n\n" + cur`). -/
def mergeSec (a b : SplitSection) : SplitSection :=
  ⟨a.title, a.markdown ++ '\n' :: '\n' :: b.markdown⟩

def dummySection : SplitSection := ⟨[], []⟩

/-- The splice loop of `mergeTinySections`.  `index` starts at 1; a merge
removes the current element and retries the same index, otherwise the
index advances.  Each iteration either shortens the list or advances the
index, so `2·length + 2` fuel is always sufficient.  The source compares
`prev + cur <= maxChapterWords * 1.25` in exact double arithmetic, which
is the rational comparison `4·(prev + cur) ≤ 5·max`. -/
def mergeLoopF (minW maxW : Nat) : Nat → List SplitSection → Nat → List SplitSection
  | 0, merged, _ => merged
  | fuel + 1, merged, index =>
    if index < merged.length then
      let prev := merged.getD (index - 1) dummySection
      let cur := merged.getD index dummySection
      if chapterWordCount cur.markdown < minW ∧
          4 * (chapterWordCount prev.markdown + chapterWordCount cur.markdown) ≤ 5 * maxW then
        mergeLoopF minW maxW fuel
          ((merged.set (index - 1) (mergeSec prev cur)).eraseIdx index) index
      else mergeLoopF minW maxW fuel merged (index + 1)
    else merged

/-- `mergeTinySections` from `src/parser.ts` (current revision): the
backward-merge loop followed by the first-segment forward merge. -/
def mergeTinySections (sections : List SplitSection) (minW maxW : Nat) : List SplitSection :=
  let merged := mergeLoopF minW maxW (2 * sections.length + 2) sections 1
  match merged with
  | a :: b :: rest =>
    if chapterWordCount a.markdown < minW ∧
        4 * (chapterWordCount a.markdown + chapterWordCount b.markdown) ≤ 5 * maxW then
      ⟨b.title, a.markdown ++ '\n' :: '\n' :: b.markdown⟩ :: rest
    else merged
  | _ => merged

example : mergeTinySections
    [⟨"A".data, "one two three four five".data⟩, ⟨"B".data, "six".data⟩] 3 100 =
    [⟨"A".data, "one two three four five\n\nsix".data⟩] := by decide
example : mergeTinySections
    [⟨"A".data, "tiny".data⟩, ⟨"B".data, "one two three four".data⟩] 3 100 =
    [⟨"B".data, "tiny\n\none two three four".data⟩] := by decide
example : mergeTinySections
    [⟨"A".data, "one two three".data⟩, ⟨"B".data, "four five six".data⟩] 3 100 =
    [⟨"A".data, "one two three".data⟩, ⟨"B".data, "four five six".data⟩] := by decide

/-- Build the chapters for the heading-based branch of `splitLargeChapter`
(`merged.map((section, index) => …)` with 1-based part numbers). -/
def sectionsToChapters (nfkd : Str → Str) (ch : Chapter) :
    Nat → List SplitSection → List Chapter
  | _, [] => []
  | n, s :: rest =>
    let fallback := ch.title ++ " Part ".data ++ natToStr n
    let sectionTitle := normalizeChapterTitle s.title fallback
    let sectionMarkdown := jsTrim s.markdown
    { index := ch.index
      title := sectionTitle
      slug := slugifyCore nfkd sectionTitle
      sourceFile := ch.sourceFile ++ "#part-".data ++ natToStr n
      markdown := sectionMarkdown
      wordCount := chapterWordCount sectionMarkdown } :: sectionsToChapters nfkd ch (n + 1) rest

/-- Build the chapters for the word-chunk fallback branch of
`splitLargeChapter`. -/
def chunksToChapters (nfkd : Str → Str) (ch : Chapter) : Nat → List Str → List Chapter
  | _, [] => []
  | n, m :: rest =>
    let sectionTitle := ch.title ++ " Part ".data ++ natToStr n
    { index := ch.index
      title := sectionTitle
      slug := slugifyCore nfkd sectionTitle
      sourceFile := ch.sourceFile ++ "#part-".data ++ natToStr n
      markdown := m
      wordCount := chapterWordCount m } :: chunksToChapters nfkd ch (n + 1) rest

/-- `splitLargeChapter` from `src/parser.ts` (current revision). -/
def splitLargeChapter (nfkd : Str → Str) (ch : Chapter) (opts : ParseOptions) :
    List Chapter :=
  if ch.wordCount ≤ opts.maxChapterWords then [ch]
  else
    let sections := splitMarkdownByHeading 1 ch.markdown
    let fallbackSections :=
      if 0 < sections.length then sections else splitMarkdownByHeading 2 ch.markdown
    let merged :=
      if 2 ≤ fallbackSections.length then
        mergeTinySections fallbackSections opts.minSectionWords opts.maxChapterWords
      else []
    if 2 ≤ merged.length then sectionsToChapters nfkd ch 1 merged
    else
      let fallbackWordChunks := splitMarkdownByWordCount ch.markdown opts.maxChapterWords
      if fallbackWordChunks.length < 2 then [ch]
      else chunksToChapters nfkd ch 1 fallbackWordChunks

example : splitLargeChapter id
    ⟨1, "Big".data, "big".data, "f.xhtml".data,
      "# Part A\none two three four five six\n\n# Part B\nseven eight nine ten eleven twelve".data,
      16⟩
    { DEFAULT_PARSE_OPTIONS with maxChapterWords := 8, minSectionWords := 2 } =
    [⟨1, "Part A".data, "part-a".data, "f.xhtml#part-1".data,
       "# Part A\none two three four five six".data, 9⟩,
     ⟨1, "Part B".data, "part-b".data, "f.xhtml#part-2".data,
       "# Part B\nseven eight nine ten eleven twelve".data, 9⟩] := by decide

/-! ### Navigation sources -/

/-- `TocEntry` from `src/parser.ts`. -/
structure TocEntry where
  href : Str
  title : Str
deriving DecidableEq

/-- One `navPoint` node of an already-parsed NCX navigation map:
`src` models `node.content?.src` (present exactly when it parsed as a
string), `label` models `node.navLabel?.text`, and `children` models
`asArray(node.navPoint)`. -/
inductive NavPoint where
  | mk (src : Option Str) (label : Option Str) (children : List NavPoint)

def NavPoint.src : NavPoint → Option Str
  | .mk s _ _ => s

def NavPoint.label : NavPoint → Option Str
  | .mk _ t _ => t

def NavPoint.children : NavPoint → List NavPoint
  | .mk _ _ ch => ch

/-- `parseNcxEntries` from `src/parser.ts` (current revision), applied to
the parsed `ncx.navMap.navPoint` roots: one entry per top-level node with
a string `src` and a non-blank label.  The loop does not descend into
child nodes. -/
def parseNcxEntries : List NavPoint → List TocEntry
  | [] => []
  | n :: rest =>
    match n.src, n.label with
    | some s, some t =>
      if (jsTrim t).isEmpty then parseNcxEntries rest
      else ⟨s, jsTrim t⟩ :: parseNcxEntries rest
    | _, _ => parseNcxEntries rest

/-- `normalizeHrefKey` from `src/parser.ts`: fragment stripped, leading
`./` stripped once, lowercased. -/
def normalizeHrefKey (value : Str) : Str :=
  let beforeHash := value.takeWhile fun c => !(c == '#')
  let stripped :=
    match beforeHash with
    | '.' :: '/' :: rest => rest
    | l => l
  stripped.map jsToLower

example : normalizeHrefKey "./OEBPS/Ch1.XHTML#frag".data = "oebps/ch1.xhtml".data := by
  decide

/-- First-match association lookup (`Map.prototype.get`). -/
def lookupStr : List (Str × Str) → Str → Option Str
  | [], _ => none
  | (k, v) :: rest, key => if k = key then some v else lookupStr rest key

/-- `toTocLabelMap`: a JS `Map` built with first-insertion-wins semantics,
modelled as an association list (only `get` is ever applied to it). -/
def toTocLabelMap (entries : List TocEntry) : List (Str × Str) :=
  entries.foldl
    (fun m e =>
      let key := normalizeHrefKey e.href
      if (lookupStr m key).isSome then m else m ++ [(key, cleanTitle e.title)])
    []

/-- `toTocHrefSet`: a JS `Set`, modelled as the list of normalized hrefs
(only membership and `size > 0` are ever observed, and both are preserved
by keeping duplicates). -/
def toTocHrefSet (entries : List TocEntry) : List Str :=
  entries.map fun e => normalizeHrefKey e.href

/-- The test `<img\b` with the `i` flag on the raw markup. -/
def hasImgTag : Str → Bool
  | [] => false
  | '<' :: rest =>
    (ciLeads "img".data rest &&
      (match rest.drop 3 with
       | c :: _ => !isWordChar c
       | [] => true)) || hasImgTag rest
  | _ :: rest => hasImgTag rest

example : hasImgTag "<p><IMG src=cover.png /></p>".data = true := by decide
example : hasImgTag "<imgs>".data = false := by decide
example : hasImgTag "no tags at all".data = false := by decide

/-- `markdown.match(^#\s+(.+)$ with the m flag)?.[1]?.trim() || ""`:
the trimmed group of the first heading match, or the empty string. -/
def firstHeadingAux : Bool → Str → Str
  | _, [] => []
  | atLS, c :: rest =>
    match (if atLS then headingMatchAt ['#'] (c :: rest) else none) with
    | some (g, _, _) => jsTrim g
    | none => firstHeadingAux (lineTerm c) rest

def firstTopHeading (md : Str) : Str := firstHeadingAux true md

example : firstTopHeading "intro\n# Real Title\nbody".data = "Real Title".data := by decide
example : firstTopHeading "## only second level".data = [] := by decide

/-- JavaScript `a || b` on strings (empty string is falsy). -/
def jsOrStr (a b : Str) : Str := if a.isEmpty then b else a

/-! ### The pipeline model

`parseEpubToChapters` after the structural parsing stages.  The archive
and manifest readers, the HTML navigation-document parser, the
HTML-to-markdown renderer and the Unicode normalizer are external
collaborators, abstracted as input data:

* `navEntries` — the result of `parseNavEntries` (its DOM queries are
  delegated to `node-html-parser`);
* `ncxRoots` — the parsed `ncx.navMap.navPoint` array consumed by
  `parseNcxEntries`;
* `spineHrefs` — the result of `deriveSpineHrefs`;
* `fetch` — `zip.getEntry` composed with the `opfDir` path join and
  normalization, keyed by the raw spine href, yielding the entry's UTF-8
  text (`none` when the entry is missing; the chapter `sourceFile` is
  therefore the href key itself);
* `render` — `html => finalizeCleanup(nhm.translate(html), parseOptions)`
  for the options of the run (the claims never inspect the cleanup's
  internals, only whether its result is empty);
* `nfkd` — the `normalize("NFKD")` capability used by `slugify`. -/
structure EpubInput where
  navEntries : List TocEntry
  ncxRoots : List NavPoint
  spineHrefs : List Str
  fetch : Str → Option Str
  render : Str → Str
  nfkd : Str → Str

/-- `navEntries.length > 0 ? navEntries : ncxEntries`. -/
def preferredTocEntriesOf (inp : EpubInput) : List TocEntry :=
  if 0 < inp.navEntries.length then inp.navEntries else parseNcxEntries inp.ncxRoots

def preferredHrefSetOf (inp : EpubInput) : List Str :=
  toTocHrefSet (preferredTocEntriesOf inp)

/-- `tocMatchedSpineHrefs` from `parseEpubToChapters`. -/
def tocMatchedSpineHrefsOf (inp : EpubInput) : List Str :=
  if 0 < (preferredHrefSetOf inp).length then
    inp.spineHrefs.filter fun href =>
      (preferredHrefSetOf inp).contains (normalizeHrefKey href)
  else inp.spineHrefs

/-- `chapterHrefs` from `parseEpubToChapters`. -/
def chapterHrefsOf (inp : EpubInput) : List Str :=
  if 0 < (tocMatchedSpineHrefsOf inp).length then tocMatchedSpineHrefsOf inp
  else inp.spineHrefs

/-- The chapter-assembly loop of `parseEpubToChapters` (current revision):
returns the assembled chapters and the `sawImageOnlyContent` flag.
`i` is the 0-based position in `chapterHrefs`. -/
def buildChapters (inp : EpubInput) (opts : ParseOptions)
    (titleMap : List (Str × Str)) (tocConstrained : Bool) :
    Nat → List Str → List Chapter × Bool
  | _, [] => ([], false)
  | i, href :: rest =>
    let acc := buildChapters inp opts titleMap tocConstrained (i + 1) rest
    match inp.fetch href with
    | none => acc
    | some html =>
      let markdown := inp.render html
      if markdown.isEmpty then
        (acc.1, acc.2 || (opts.stripImages && hasImgTag html))
      else
        let defaultTitle := "Chapter ".data ++ natToStr (i + 1)
        let hrefKey := normalizeHrefKey href
        let tocTitle := lookupStr titleMap hrefKey
        let firstHeading := firstTopHeading markdown
        let title := normalizeChapterTitle
          (jsOrStr (jsOrStr (tocTitle.getD []) firstHeading)
            (if tocConstrained then [] else defaultTitle))
          defaultTitle
        if title.isEmpty then acc
        else
          ({ index := i + 1
             title := title
             slug := slugifyCore inp.nfkd title
             sourceFile := href
             markdown := markdown
             wordCount := chapterWordCount markdown } :: acc.1, acc.2)

def assembledOf (inp : EpubInput) (opts : ParseOptions) : List Chapter × Bool :=
  buildChapters inp opts (toTocLabelMap (preferredTocEntriesOf inp))
    (!(preferredHrefSetOf inp).isEmpty) 0 (chapterHrefsOf inp)

/-- `filteredAndSplit` from `parseEpubToChapters`: boilerplate filter,
splitting, and the post-split boilerplate filter. -/
def survivorsOf (inp : EpubInput) (opts : ParseOptions) : List Chapter :=
  (((assembledOf inp opts).1.filter fun ch => !isBoilerplateChapter ch opts).flatMap
      fun ch => splitLargeChapter inp.nfkd ch opts).filter
    fun ch => !isBoilerplateChapter ch opts

/-- The two error outcomes of the modelled stage of
`parseEpubToChapters` (the structural `CliError`s of the earlier parsing
stages are outside the modelled inputs). -/
inductive CliErr where
  | imageOnlyOcrRequired
  | noChapterContent
deriving DecidableEq

/-- The final reindexing pass (`index: idx + 1`). -/
def reindexFrom : Nat → List Chapter → List Chapter
  | _, [] => []
  | n, ch :: rest => { ch with index := n } :: reindexFrom (n + 1) rest

/-- `parseEpubToChapters` from `src/parser.ts` (current revision), from
the post-parsing stage on: assemble, filter, split, filter, then either
fail (image-only or generic) or return the reindexed chapters.  The
returned `metadata` is a passthrough of the parsed OPF metadata and is
not modelled. -/
def parseEpubToChaptersModel (inp : EpubInput) (opts : ParseOptions) :
    Except CliErr (List Chapter) :=
  if (survivorsOf inp opts).isEmpty then
    .error (if (assembledOf inp opts).2 then .imageOnlyOcrRequired else .noChapterContent)
  else .ok (reindexFrom 1 (survivorsOf inp opts))

/-- `sawImageOnlyContent` is set for a selected href exactly when its
entry exists, renders to empty markdown after cleanup, and the raw markup
contains an image tag (the `stripImages` conjunct is handled by the
caller). -/
def droppedImageOnly (inp : EpubInput) (href : Str) : Bool :=
  match inp.fetch href with
  | some html => (inp.render html).isEmpty && hasImgTag html
  | none => false

/-! ### The note-density threshold (claim C5)

The spec reads the threshold as "at least one-third of them"; the source
compares the ratio against the literal `0.33`. -/

/-- The spec's reading of the density rule, word for word: part (a) as in
the source, part (b) requiring at least one third — `noteLikeLines ≥
lines.length / 3`, i.e. `lines.length ≤ 3 · noteLikeLines` — of the first
350 non-blank lines (at least 40 of them required) to be note-like. -/
def specNoteDense (markdown : Str) : Bool :=
  if 30 ≤ inlineNoteMatchCount markdown ∧ chapterWordCount markdown ≤ 15000 then true
  else
    let lines := noteDenseLines markdown
    if lines.length < 40 then false
    else decide (lines.length ≤ 3 * lines.countP noteLikeLine)

/-- 100 non-blank lines of which exactly 33 are note-like: the source's
`ratio ≥ 0.33` accepts it, the spec's "at least one-third" does not. -/
def mdC5 : Str :=
  (List.replicate 33 "1 a\n".data ++ List.replicate 67 "b\n".data).flatten

/-- Claim C5, counterexample: a markdown text the code classifies as
note-dense although fewer than one-third of its lines are note-like. -/
theorem c5_one_third_counterexample :
    isLikelyNoteDenseMarkdown mdC5 = true ∧ specNoteDense mdC5 = false := by
  constructor
  · decide
  · decide

/-- Claim C5 (amended): `isLikelyNoteDenseMarkdown` returns `true` exactly
when 30 or more inline citation-marker tokens occur in a chapter of at
most 15000 words, or at least 40 of the first 350 trimmed non-blank lines
exist and the note-like ones among them are at least the fraction 33/100
(not one-third) of them. -/
theorem noteDense_threshold_is_033 (md : Str) :
    isLikelyNoteDenseMarkdown md = true ↔
      (30 ≤ inlineNoteMatchCount md ∧ chapterWordCount md ≤ 15000) ∨
        (40 ≤ (noteDenseLines md).length ∧
          33 * (noteDenseLines md).length ≤
            100 * (noteDenseLines md).countP noteLikeLine) := by
  simp only [isLikelyNoteDenseMarkdown]
  split
  next h => exact iff_of_true rfl (Or.inl h)
  next h =>
    split
    next hlt =>
      constructor
      · intro hc; exact (Bool.false_ne_true hc).elim
      · rintro (hl | ⟨h40, _⟩)
        · exact absurd hl h
        · omega
    next hge =>
      rw [decide_eq_true_iff]
      constructor
      · intro hp; exact Or.inr ⟨by omega, hp⟩
      · rintro (hl | ⟨_, hp⟩)
        · exact absurd hl h
        · exact hp

/-! ### The index/glossary keep-override (claim C6) -/

/-- Claim C6: a chapter whose cleaned, lowercased title contains `index`
or `glossary` as a whole word is never classified as boilerplate,
whatever the other rules would say. -/
theorem boilerplate_keeps_index_glossary (ch : Chapter) (opts : ParseOptions)
    (h : hasIndexOrGlossaryWord ((cleanTitle ch.title).map jsToLower) = true) :
    isBoilerplateChapter ch opts = false := by
  simp only [isBoilerplateChapter]
  split
  · rfl
  · simp [h]

/-- Claim C6, witness: the exact title `Index` — which the hard title rule
`^(table of contents|contents|copyright|index|...)$` would otherwise
match — is kept. -/
theorem boilerplate_keeps_index_glossary_witness :
    hasIndexOrGlossaryWord
        ((cleanTitle "Index".data).map jsToLower) = true ∧
      isBoilerplateChapter
        ⟨4, "Index".data, "index".data, "idx.xhtml".data,
          "apple, 3\nbanana, 7\ncherry, 12".data, 6⟩
        DEFAULT_PARSE_OPTIONS = false :=
  ⟨by decide,
    boilerplate_keeps_index_glossary
      ⟨4, "Index".data, "index".data, "idx.xhtml".data,
        "apple, 3\nbanana, 7\ncherry, 12".data, 6⟩
      DEFAULT_PARSE_OPTIONS (by decide)⟩

/-! ### The prose-rejection guard of title normalization (claim C7) -/

/-- A 16-word prose candidate for the claim C7 witness. -/
def c7RawTitle : Str :=
  "He walked out and the rain kept falling on the old tin roof all night long".data

/-- Claim C7: for a candidate whose cleaned form is non-empty, not purely
numeric and not a `chapter <number>` match, normalization returns the
fallback exactly when the cleaned form is over 95 characters, or over 15
words, or over 8 words with a sentence break (`[.!?]` + whitespace +
capital), or over 12 words with two or more of `,;:`; otherwise it
returns the cleaned form. -/
theorem normalizeTitle_prose_guard (raw fallback : Str)
    (h1 : cleanTitle raw ≠ [])
    (h2 : (cleanTitle raw).all isDigitChar = false)
    (h3 : parseChapterMatch (cleanTitle raw) = none) :
    normalizeChapterTitle raw fallback =
      if 95 < (cleanTitle raw).length ∨ 15 < (wordsOf (cleanTitle raw)).length ∨
          (8 < (wordsOf (cleanTitle raw)).length ∧
            sentenceBreakTest (cleanTitle raw) = true) ∨
          (12 < (wordsOf (cleanTitle raw)).length ∧ 2 ≤ countPunct (cleanTitle raw))
        then fallback else cleanTitle raw := by
  simp only [normalizeChapterTitle, normalizeCleanedTitle]
  generalize hcl : cleanTitle raw = cl at h1 h2 h3 ⊢
  rw [if_neg h1, h2, if_neg (by simp), h3]
  by_cases hA : 95 < cl.length ∨ 15 < (wordsOf cl).length
  · rcases hA with ha | hb
    · rw [if_pos (Or.inl ha), if_pos (Or.inl ha)]
    · rw [if_pos (Or.inr hb : 95 < cl.length ∨ _), if_pos (Or.inr (Or.inl hb))]
  · rw [if_neg hA]
    by_cases hB : sentenceBreakTest cl = true ∧ 8 < (wordsOf cl).length
    · rw [if_pos hB, if_pos (Or.inr (Or.inr (Or.inl ⟨hB.2, hB.1⟩)))]
    · rw [if_neg hB]
      by_cases hC : 12 < (wordsOf cl).length ∧ 2 ≤ countPunct cl
      · rw [if_pos hC, if_pos (Or.inr (Or.inr (Or.inr hC)))]
      · rw [if_neg hC,
          if_neg (fun hcond =>
            hcond.elim (fun ha => hA (Or.inl ha)) fun r =>
              r.elim (fun hb => hA (Or.inr hb)) fun r2 =>
                r2.elim (fun hc => hB ⟨hc.2, hc.1⟩) hC)]

/-- Claim C7, witness: a 16-word candidate is rejected in favour of the
fallback. -/
theorem normalizeTitle_prose_guard_witness :
    cleanTitle c7RawTitle ≠ [] ∧
      (cleanTitle c7RawTitle).all isDigitChar = false ∧
      parseChapterMatch (cleanTitle c7RawTitle) = none ∧
      normalizeChapterTitle c7RawTitle "Chapter 3".data =
        (if 95 < (cleanTitle c7RawTitle).length ∨
            15 < (wordsOf (cleanTitle c7RawTitle)).length ∨
            (8 < (wordsOf (cleanTitle c7RawTitle)).length ∧
              sentenceBreakTest (cleanTitle c7RawTitle) = true) ∨
            (12 < (wordsOf (cleanTitle c7RawTitle)).length ∧
              2 ≤ countPunct (cleanTitle c7RawTitle))
          then "Chapter 3".data else cleanTitle c7RawTitle) :=
  ⟨by decide, by decide, by decide,
    normalizeTitle_prose_guard c7RawTitle "Chapter 3".data
      (by decide) (by decide) (by decide)⟩

/-! ### The merge pass, spec-shaped (claim C8)

The source walks the array with a mutable index, splicing merged
segments out; the spec describes the same pass segment by segment.  The
spec-shaped recursion below follows the spec's words directly and is
proved equal to the index-splice loop. -/

/-- The spec's backward-merge pass: `done` holds the finished prefix,
`last` the segment any undersized next segment is merged into.  For each
segment from the second onward: if its word count is below the minimum
and the combined word count stays within 1.25x the maximum
(`4·(prev+cur) ≤ 5·max` exactly), concatenate it onto the preceding
segment with a blank-line separator and drop it; otherwise leave it in
place and move on. -/
def specMergeBackGo (minW maxW : Nat) (done : List SplitSection)
    (last : SplitSection) : List SplitSection → List SplitSection
  | [] => done ++ [last]
  | s :: rest =>
    if chapterWordCount s.markdown < minW ∧
        4 * (chapterWordCount last.markdown + chapterWordCount s.markdown) ≤ 5 * maxW then
      specMergeBackGo minW maxW done (mergeSec last s) rest
    else specMergeBackGo minW maxW (done ++ [last]) s rest

/-- `mergeTinySections` as the spec words it: the backward-merge pass over
the segments from the second onward, then the first segment merged
forward into the second under the same threshold and size bound. -/
def specMergeTinySections (sections : List SplitSection) (minW maxW : Nat) :
    List SplitSection :=
  let merged :=
    match sections with
    | [] => []
    | a :: rest => specMergeBackGo minW maxW [] a rest
  match merged with
  | a :: b :: rest =>
    if chapterWordCount a.markdown < minW ∧
        4 * (chapterWordCount a.markdown + chapterWordCount b.markdown) ≤ 5 * maxW then
      ⟨b.title, a.markdown ++ '\n' :: '\n' :: b.markdown⟩ :: rest
    else merged
  | _ => merged

theorem getD_append_cons {α : Type} (done : List α) (x : α) (rest : List α) (d : α) :
    (done ++ x :: rest).getD done.length d = x := by
  induction done with
  | nil => rfl
  | cons a t ih => simpa [List.getD_cons_succ] using ih

theorem getD_append_cons_succ {α : Type} (done : List α) (x y : α) (rest : List α)
    (d : α) : (done ++ x :: y :: rest).getD (done.length + 1) d = y := by
  induction done with
  | nil => rfl
  | cons a t ih => simpa [List.getD_cons_succ] using ih

theorem set_eraseIdx_splice {α : Type} (done : List α) (x y v : α) (rest : List α) :
    ((done ++ x :: y :: rest).set done.length v).eraseIdx (done.length + 1) =
      done ++ v :: rest := by
  induction done with
  | nil => rfl
  | cons a t ih =>
    simp only [List.cons_append, List.length_cons, List.set_cons_succ,
      List.eraseIdx_cons_succ, ih]

theorem mergeLoopF_eq_go (minW maxW : Nat) :
    ∀ (rest done : List SplitSection) (last : SplitSection) (fuel : Nat),
      2 * rest.length + 1 ≤ fuel →
      mergeLoopF minW maxW fuel (done ++ last :: rest) (done.length + 1) =
        specMergeBackGo minW maxW done last rest := by
  intro rest
  induction rest with
  | nil =>
    intro done last fuel hf
    match fuel, hf with
    | f + 1, _ =>
      simp only [mergeLoopF, specMergeBackGo]
      rw [if_neg (by simp)]
  | cons s rest2 ih =>
    intro done last fuel hf
    match fuel, hf with
    | f + 1, hf =>
      simp only [mergeLoopF, specMergeBackGo]
      rw [if_pos (by simp only [List.length_append, List.length_cons]; omega),
        Nat.add_sub_cancel, getD_append_cons,
        getD_append_cons_succ]
      by_cases hm : chapterWordCount s.markdown < minW ∧
          4 * (chapterWordCount last.markdown + chapterWordCount s.markdown) ≤ 5 * maxW
      · rw [if_pos hm, if_pos hm, set_eraseIdx_splice]
        exact ih done (mergeSec last s) f (by simp at hf ⊢; omega)
      · rw [if_neg hm, if_neg hm, List.append_cons done last (s :: rest2)]
        have hlen : done.length + 1 + 1 = (done ++ [last]).length + 1 := by simp
        rw [hlen]
        exact ih (done ++ [last]) s f (by simp at hf ⊢; omega)

/-- Claim C8: the index-splice merge loop of `mergeTinySections` is
exactly the spec's backward pass — each segment from the second onward is
merged into its predecessor precisely when it is under `minSectionWords`
and the combined size stays within 1.25x `maxChapterWords` — followed by
the identical forward merge of an undersized first segment. -/
theorem mergeTinySections_eq_spec (sections : List SplitSection) (minW maxW : Nat) :
    mergeTinySections sections minW maxW = specMergeTinySections sections minW maxW := by
  simp only [mergeTinySections, specMergeTinySections]
  cases sections with
  | nil => rfl
  | cons a rest =>
    have h := mergeLoopF_eq_go minW maxW rest [] a (2 * (a :: rest).length + 2)
      (by simp [List.length_cons]; omega)
    simp only [List.nil_append, List.length_nil, Nat.zero_add] at h
    rw [h]

/-- When the host normalizer fixes the lowercased input, `slugifyCore`
cannot see it: the result is that of the identity normalizer. -/
theorem slugifyCore_eq_id {nfkd : Str → Str} {s : Str}
    (h : nfkd (s.map jsToLower) = s.map jsToLower) :
    slugifyCore nfkd s = slugifyCore id s := by
  simp only [slugifyCore, h, id]

/-! ### Output invariants (claim C1) -/

section OutputInvariants

theorem ne_nil_append_of_left {a b : Str} (h : a ≠ []) : a ++ b ≠ [] :=
  fun hc => h (List.append_eq_nil.mp hc).1

theorem ne_nil_append_of_right {a b : Str} (h : b ≠ []) : a ++ b ≠ [] :=
  fun hc => h (List.append_eq_nil.mp hc).2

theorem normalizeCleanedTitle_ne_nil {cleaned fallback : Str} (hfb : fallback ≠ []) :
    normalizeCleanedTitle cleaned fallback ≠ [] := by
  simp only [normalizeCleanedTitle]
  split
  · exact hfb
  next hclean =>
    split
    · exact ne_nil_append_of_left (by decide)
    · split
      · split
        · exact ne_nil_append_of_left (by decide)
        · split
          · exact ne_nil_append_of_left (by decide)
          · exact ne_nil_append_of_left
              (ne_nil_append_of_left (ne_nil_append_of_left (by decide)))
      · split
        · exact hfb
        · split
          · exact hfb
          · split
            · exact hfb
            · exact hclean

theorem normalizeChapterTitle_ne_nil {raw fallback : Str} (hfb : fallback ≠ []) :
    normalizeChapterTitle raw fallback ≠ [] :=
  normalizeCleanedTitle_ne_nil hfb

theorem dropWhile_head_false {p : Char → Bool} {l : Str} {c : Char} {t : Str}
    (h : l.dropWhile p = c :: t) : p c = false := by
  induction l with
  | nil => cases h
  | cons a rest ih =>
    rw [List.dropWhile_cons] at h
    split at h
    · exact ih h
    next hp =>
      cases h
      simpa using hp

theorem jsTrim_ne_nil_of_hasNonWs {l : Str} (h : ∃ c ∈ l, jsWs c = false) :
    jsTrim l ≠ [] := by
  rcases h with ⟨c, hc, hws⟩
  intro htrim
  unfold jsTrim at htrim
  rw [List.reverse_eq_nil_iff, List.dropWhile_eq_nil_iff] at htrim
  have hall : ∀ x ∈ l.dropWhile jsWs, jsWs x = true := fun x hx =>
    htrim x (List.mem_reverse.mpr hx)
  have hsplit : c ∈ l.takeWhile jsWs ++ l.dropWhile jsWs := by
    rw [List.takeWhile_append_dropWhile]; exact hc
  rcases List.mem_append.mp hsplit with h1 | h1
  · rw [List.mem_takeWhile_imp h1] at hws; cases hws
  · rw [hall c h1] at hws; cases hws

theorem hasNonWs_jsTrim_of_ne_nil {l : Str} (h : jsTrim l ≠ []) :
    ∃ c ∈ jsTrim l, jsWs c = false := by
  unfold jsTrim at h ⊢
  rcases hm : (l.dropWhile jsWs).reverse.dropWhile jsWs with _ | ⟨c, t⟩
  · rw [hm] at h; simp at h
  · exact ⟨c, List.mem_reverse.mpr (List.mem_cons_self _ _), dropWhile_head_false hm⟩

theorem getD_mem {α : Type} {l : List α} {i : Nat} {d : α} (h : i < l.length) :
    l.getD i d ∈ l := by
  rw [List.getD_eq_getElem?_getD, List.getElem?_eq_getElem h]
  exact List.getElem_mem h

/-- Markdown of every section produced by `splitMarkdownByHeading` is a
non-empty trim result, hence contains a non-whitespace character. -/
theorem splitMarkdownByHeading_sections {level : Nat} {md : Str} :
    ∀ s ∈ splitMarkdownByHeading level md, ∃ c ∈ s.markdown, jsWs c = false := by
  intro s hs
  simp only [splitMarkdownByHeading] at hs
  split at hs
  · cases hs
  · rcases List.mem_filter.mp hs with ⟨hmem, hfilt⟩
    rcases List.mem_map.mp hmem with ⟨m, _, heq⟩
    subst heq
    simp only [Bool.not_eq_eq_eq_not, Bool.not_false, List.isEmpty_eq_true] at hfilt
    exact hasNonWs_jsTrim_of_ne_nil (by simpa using hfilt)

theorem mergeSec_hasNonWs {a b : SplitSection}
    (h : ∃ c ∈ a.markdown, jsWs c = false) :
    ∃ c ∈ (mergeSec a b).markdown, jsWs c = false := by
  rcases h with ⟨c, hc, hw⟩
  exact ⟨c, List.mem_append_left _ hc, hw⟩

theorem mergeLoopF_preserves {minW maxW : Nat} :
    ∀ (fuel : Nat) (merged : List SplitSection) (index : Nat),
      (∀ s ∈ merged, ∃ c ∈ s.markdown, jsWs c = false) →
      ∀ s ∈ mergeLoopF minW maxW fuel merged index, ∃ c ∈ s.markdown, jsWs c = false := by
  intro fuel
  induction fuel with
  | zero => intro merged index h s hs; exact h s hs
  | succ f ih =>
    intro merged index h s hs
    simp only [mergeLoopF] at hs
    split at hs
    next hlen =>
      split at hs
      · refine ih _ _ ?_ s hs
        intro x hx
        have hx2 := List.mem_of_mem_eraseIdx hx
        rcases List.mem_or_eq_of_mem_set hx2 with h1 | h1
        · exact h x h1
        · subst h1
          exact mergeSec_hasNonWs (h _ (getD_mem (Nat.lt_of_le_of_lt (Nat.sub_le _ _) hlen)))
      · exact ih _ _ h s hs
    · exact h s hs

theorem mergeTinySections_preserves {minW maxW : Nat} {sections : List SplitSection}
    (h : ∀ s ∈ sections, ∃ c ∈ s.markdown, jsWs c = false) :
    ∀ s ∈ mergeTinySections sections minW maxW, ∃ c ∈ s.markdown, jsWs c = false := by
  intro s hs
  have hloop := @mergeLoopF_preserves minW maxW
    (2 * sections.length + 2) sections 1 h
  simp only [mergeTinySections] at hs
  split at hs
  next a b rest heq =>
    have hmem : ∀ x ∈ a :: b :: rest, ∃ c ∈ x.markdown, jsWs c = false := fun x hx =>
      hloop x (by rw [heq]; exact hx)
    split at hs
    · cases hs with
      | head =>
        rcases hmem a (List.mem_cons_self _ _) with ⟨c, hc, hw⟩
        exact ⟨c, List.mem_append_left _ hc, hw⟩
      | tail _ hs =>
        exact hmem s (List.mem_cons_of_mem _ (List.mem_cons_of_mem _ hs))
    · exact hloop s hs
  · exact hloop s hs

theorem splitMarkdownByWordCount_mem {md : Str} {maxW : Nat} :
    ∀ c ∈ splitMarkdownByWordCount md maxW, c ≠ [] := by
  intro c hc
  simp only [splitMarkdownByWordCount] at hc
  split at hc
  · cases hc
  · have h2 := (List.mem_filter.mp hc).2
    simp only [Bool.not_eq_eq_eq_not, Bool.not_false, List.isEmpty_eq_true] at h2
    simpa using h2

/- The title/markdown processing functions are locally marked irreducible
for the rest of this section: the membership lemmas below only ever need
them as opaque heads, and letting `whnf` dive into their fuel-based bodies
on symbolic arguments is prohibitively slow.  All the facts that require
unfolding them are proved outside the section. -/
attribute [local irreducible] normalizeChapterTitle normalizeCleanedTitle cleanTitle
  chapterWordCount slugifyCore jsTrim stripImageLinks stripLinks
  stripMarkdownTitleDecorations stripLeaderDots stripTrailingFootnote wordsOf
  natToStr splitMarkdownByHeading mergeTinySections splitMarkdownByWordCount
  isBoilerplateChapter isLikelyNoteDenseMarkdown firstTopHeading hasImgTag

theorem sectionsToChapters_mem {nfkd : Str → Str} {ch : Chapter}
    {secs : List SplitSection}
    (hsec : ∀ s ∈ secs, ∃ c ∈ s.markdown, jsWs c = false) :
    ∀ (n : Nat) (c : Chapter), c ∈ sectionsToChapters nfkd ch n secs →
      c.title ≠ [] ∧ c.slug ≠ [] ∧ c.markdown ≠ [] := by
  induction secs with
  | nil => intro n c hc; cases hc
  | cons s rest ih =>
    intro n c hc
    simp only [sectionsToChapters] at hc
    cases hc with
    | head =>
      refine ⟨?_, slugify_ne_nil, ?_⟩
      · exact normalizeChapterTitle_ne_nil
          (ne_nil_append_of_left (ne_nil_append_of_right (by decide)))
      · exact jsTrim_ne_nil_of_hasNonWs (hsec s (List.mem_cons_self _ _))
    | tail _ hc =>
      exact ih (fun x hx => hsec x (List.mem_cons_of_mem _ hx)) (n + 1) c hc

theorem chunksToChapters_mem {nfkd : Str → Str} {ch : Chapter} {chunks : List Str}
    (hchunks : ∀ m ∈ chunks, m ≠ []) :
    ∀ (n : Nat) (c : Chapter), c ∈ chunksToChapters nfkd ch n chunks →
      c.title ≠ [] ∧ c.slug ≠ [] ∧ c.markdown ≠ [] := by
  induction chunks with
  | nil => intro n c hc; cases hc
  | cons m rest ih =>
    intro n c hc
    simp only [chunksToChapters] at hc
    cases hc with
    | head =>
      exact ⟨ne_nil_append_of_left (ne_nil_append_of_right (by decide)),
        slugify_ne_nil, hchunks m (List.mem_cons_self _ _)⟩
    | tail _ hc =>
      exact ih (fun x hx => hchunks x (List.mem_cons_of_mem _ hx)) (n + 1) c hc

theorem splitLargeChapter_mem {nfkd : Str → Str} {ch : Chapter} {opts : ParseOptions}
    (hch : ch.title ≠ [] ∧ ch.slug ≠ [] ∧ ch.markdown ≠ []) :
    ∀ c ∈ splitLargeChapter nfkd ch opts,
      c.title ≠ [] ∧ c.slug ≠ [] ∧ c.markdown ≠ [] := by
  intro c hc
  have hfbP : ∀ s ∈ (if 0 < (splitMarkdownByHeading 1 ch.markdown).length
      then splitMarkdownByHeading 1 ch.markdown
      else splitMarkdownByHeading 2 ch.markdown),
      ∃ c ∈ s.markdown, jsWs c = false := by
    split
    · exact splitMarkdownByHeading_sections
    · exact splitMarkdownByHeading_sections
  simp only [splitLargeChapter] at hc
  generalize hFB : (if 0 < (splitMarkdownByHeading 1 ch.markdown).length
      then splitMarkdownByHeading 1 ch.markdown
      else splitMarkdownByHeading 2 ch.markdown) = fb at hc hfbP
  have hMP : ∀ s ∈ (if 2 ≤ fb.length
      then mergeTinySections fb opts.minSectionWords opts.maxChapterWords
      else ([] : List SplitSection)),
      ∃ c ∈ s.markdown, jsWs c = false := by
    split
    · exact mergeTinySections_preserves hfbP
    · intro s hs; cases hs
  generalize hM : (if 2 ≤ fb.length
      then mergeTinySections fb opts.minSectionWords opts.maxChapterWords
      else ([] : List SplitSection)) = M at hc hMP
  split at hc
  · cases hc with
    | head => exact hch
    | tail _ hc => cases hc
  · split at hc
    · exact sectionsToChapters_mem hMP 1 c hc
    · split at hc
      · cases hc with
        | head => exact hch
        | tail _ hc => cases hc
      · exact chunksToChapters_mem splitMarkdownByWordCount_mem 1 c hc

theorem buildChapters_mem {inp : EpubInput} {opts : ParseOptions}
    {titleMap : List (Str × Str)} {tc : Bool} :
    ∀ (i : Nat) (hrefs : List Str) (ch : Chapter),
      ch ∈ (buildChapters inp opts titleMap tc i hrefs).1 →
      ch.title ≠ [] ∧ ch.slug ≠ [] ∧ ch.markdown ≠ [] := by
  intro i hrefs
  induction hrefs generalizing i with
  | nil => intro ch h; cases h
  | cons href rest ih =>
    intro ch h
    simp only [buildChapters] at h
    split at h
    · exact ih (i + 1) ch h
    · split at h
      · exact ih (i + 1) ch h
      next hmd =>
        split at h
        all_goals
          split at h
          · exact ih (i + 1) ch h
          · cases h with
            | head =>
              refine ⟨normalizeChapterTitle_ne_nil (ne_nil_append_of_left (by decide)),
                slugify_ne_nil, ?_⟩
              simpa using hmd
            | tail _ h => exact ih (i + 1) ch h

theorem survivors_mem {inp : EpubInput} {opts : ParseOptions} :
    ∀ ch ∈ survivorsOf inp opts, ch.title ≠ [] ∧ ch.slug ≠ [] ∧ ch.markdown ≠ [] := by
  intro ch hch
  simp only [survivorsOf] at hch
  have h1 := (List.mem_filter.mp hch).1
  rcases List.mem_flatMap.mp h1 with ⟨parent, hp, hin⟩
  have hp1 := (List.mem_filter.mp hp).1
  simp only [assembledOf] at hp1
  exact splitLargeChapter_mem (buildChapters_mem _ _ parent hp1) ch hin

theorem reindexFrom_map_index :
    ∀ (n : Nat) (chs : List Chapter),
      (reindexFrom n chs).map (fun ch => ch.index) = List.range' n chs.length := by
  intro n chs
  induction chs generalizing n with
  | nil => rfl
  | cons c rest ih =>
    simp only [reindexFrom, List.map_cons, List.length_cons, List.range'_succ]
    rw [ih (n + 1)]

theorem reindexFrom_length :
    ∀ (n : Nat) (chs : List Chapter), (reindexFrom n chs).length = chs.length := by
  intro n chs
  induction chs generalizing n with
  | nil => rfl
  | cons c rest ih => simp [reindexFrom, ih]

theorem mem_reindexFrom :
    ∀ (n : Nat) (chs : List Chapter) (c : Chapter), c ∈ reindexFrom n chs →
      ∃ c0 ∈ chs, c.title = c0.title ∧ c.slug = c0.slug ∧ c.markdown = c0.markdown := by
  intro n chs
  induction chs generalizing n with
  | nil => intro c hc; cases hc
  | cons c0 rest ih =>
    intro c hc
    simp only [reindexFrom] at hc
    cases hc with
    | head => exact ⟨c0, List.mem_cons_self _ _, rfl, rfl, rfl⟩
    | tail _ hc =>
      rcases ih (n + 1) c hc with ⟨c1, hc1, he⟩
      exact ⟨c1, List.mem_cons_of_mem _ hc1, he⟩

/-- Claim C1: whenever the modelled `parseEpubToChapters` returns
normally, every returned chapter has a non-empty title, a non-empty slug
and non-empty markdown, and the index fields, in list order, are exactly
1, 2, …, n. -/
theorem parseEpub_output_invariants (inp : EpubInput) (opts : ParseOptions)
    (chapters : List Chapter)
    (h : parseEpubToChaptersModel inp opts = .ok chapters) :
    (∀ ch ∈ chapters, ch.title ≠ [] ∧ ch.slug ≠ [] ∧ ch.markdown ≠ []) ∧
      chapters.map (fun ch => ch.index) = List.range' 1 chapters.length := by
  simp only [parseEpubToChaptersModel] at h
  split at h
  · cases h
  · injection h with h
    subst h
    constructor
    · intro ch hch
      rcases mem_reindexFrom _ _ _ hch with ⟨c0, hc0, ht, hs, hm⟩
      have h0 := survivors_mem c0 hc0
      rw [ht, hs, hm]
      exact h0
    · rw [reindexFrom_map_index, reindexFrom_length]

end OutputInvariants

/-! ### Concrete runs of the modelled pipeline (claims C1, C2, C9)

The closed theorems below evaluate the whole modelled pipeline on small
concrete inputs through `decide`, which reduces in the kernel. -/

deriving instance DecidableEq for Except

/-- A one-chapter EPUB with no navigation data at all: the selection is
unconstrained and the default title is synthesized. -/
def inpC1 : EpubInput :=
  { navEntries := []
    ncxRoots := []
    spineHrefs := ["ch1.xhtml".data]
    fetch := fun _ => some "<p>Hello world from chapter one.</p>".data
    render := fun _ => "Hello world from chapter one.".data
    nfkd := id }

def chsC1 : List Chapter :=
  [⟨1, "Chapter 1".data, "chapter-1".data, "ch1.xhtml".data,
    "Hello world from chapter one.".data, 5⟩]

/-- Claim C1, witness: the invariants instantiated on a concrete
successful run. -/
theorem parseEpub_output_invariants_witness :
    parseEpubToChaptersModel inpC1 DEFAULT_PARSE_OPTIONS = .ok chsC1 ∧
      ((∀ ch ∈ chsC1, ch.title ≠ [] ∧ ch.slug ≠ [] ∧ ch.markdown ≠ []) ∧
        chsC1.map (fun ch => ch.index) = List.range' 1 chsC1.length) :=
  ⟨by decide,
    parseEpub_output_invariants inpC1 DEFAULT_PARSE_OPTIONS chsC1 (by decide)⟩

/-- An EPUB whose only navigation source lists `other.xhtml`, while the
spine (and archive) hold only `ch1.xhtml`: the TOC constrains the
selection but yields no label for the selected entry, and the rendered
markdown has no top-level heading. -/
def inpC2 : EpubInput :=
  { navEntries := []
    ncxRoots := [NavPoint.mk (some "other.xhtml".data) (some "Intro".data) []]
    spineHrefs := ["ch1.xhtml".data]
    fetch := fun _ => some "<p>Hello body text.</p>".data
    render := fun _ => "Hello body text.".data
    nfkd := id }

/-- Claim C2: at `inpC2` the TOC entry set is non-empty, the TOC lookup
for the selected href fails and the markdown has no top-level heading —
yet the chapter is returned, with the synthesized title `Chapter 1`: the
`if (!title) continue` drop guard is unreachable, because
`normalizeChapterTitle` returns the non-empty fallback on an empty
candidate. -/
theorem c2_toc_constrained_fallback_kept :
    preferredHrefSetOf inpC2 ≠ [] ∧
      lookupStr (toTocLabelMap (preferredTocEntriesOf inpC2))
        (normalizeHrefKey "ch1.xhtml".data) = none ∧
      firstTopHeading (inpC2.render "<p>Hello body text.</p>".data) = [] ∧
      parseEpubToChaptersModel inpC2 DEFAULT_PARSE_OPTIONS =
        .ok [⟨1, "Chapter 1".data, "chapter-1".data, "ch1.xhtml".data,
          "Hello body text.".data, 3⟩] :=
  ⟨by decide, by decide, by decide, by decide⟩

/-! ### Legacy navigation-map traversal (claim C3) -/

/-- Breadth-first traversal as the spec words it, the fuel bounding the
number of dequeue steps (one per node, so any fuel at least the total
node count is enough): take a node from the front of the queue, record
its `(href, trimmed label)` when it has a `src` and a non-blank label,
and enqueue its children at the back. -/
def ncxBfsAux : Nat → List NavPoint → List TocEntry
  | 0, _ => []
  | _ + 1, [] => []
  | fuel + 1, n :: queue =>
    let rest := ncxBfsAux fuel (queue ++ n.children)
    match n.src, n.label with
    | some s, some t => if (jsTrim t).isEmpty then rest else ⟨s, jsTrim t⟩ :: rest
    | _, _ => rest

/-- The spec's breadth-first reading of the legacy navigation map. -/
def specNcxEntriesBfs (fuel : Nat) (roots : List NavPoint) : List TocEntry :=
  ncxBfsAux fuel roots

/-- A two-node navigation map: the root lists `a.xhtml`, its nested child
lists `b.xhtml`. -/
def ncxT : List NavPoint :=
  [NavPoint.mk (some "a.xhtml".data) (some "Alpha".data)
    [NavPoint.mk (some "b.xhtml".data) (some "Beta".data) []]]

/-- Claim C3, counterexample: the nested child's entry is collected by
the spec's breadth-first traversal but not by `parseNcxEntries`, which
iterates over the top-level nodes only. -/
theorem c3_nested_entry_missing :
    specNcxEntriesBfs 4 ncxT =
        [⟨"a.xhtml".data, "Alpha".data⟩, ⟨"b.xhtml".data, "Beta".data⟩] ∧
      parseNcxEntries ncxT = [⟨"a.xhtml".data, "Alpha".data⟩] :=
  ⟨by decide, by decide⟩

/-- Claim C3 (amended): `parseNcxEntries` collects one `(href, trimmed
label)` entry per **top-level** navigation node with a string target and
a non-blank label; nested child nodes contribute nothing. -/
theorem parseNcxEntries_top_level_only (roots : List NavPoint) (e : TocEntry) :
    e ∈ parseNcxEntries roots ↔
      ∃ n ∈ roots, ∃ t, n.src = some e.href ∧ n.label = some t ∧
        jsTrim t ≠ [] ∧ e.title = jsTrim t := by
  rcases e with ⟨eh, et⟩
  induction roots with
  | nil => simp [parseNcxEntries]
  | cons p rest ih =>
    rcases p with ⟨psrc, plabel, pchildren⟩
    cases psrc with
    | none =>
      rw [show parseNcxEntries (NavPoint.mk none plabel pchildren :: rest) =
          parseNcxEntries rest from rfl, ih]
      constructor
      · rintro ⟨n, hn, hP⟩
        exact ⟨n, List.mem_cons_of_mem _ hn, hP⟩
      · rintro ⟨n, hn, hP⟩
        cases hn with
        | head =>
          rcases hP with ⟨t2, hsrc, _⟩
          exact absurd hsrc (by simp [NavPoint.src])
        | tail _ hn => exact ⟨n, hn, hP⟩
    | some s =>
      cases plabel with
      | none =>
        rw [show parseNcxEntries (NavPoint.mk (some s) none pchildren :: rest) =
            parseNcxEntries rest from rfl, ih]
        constructor
        · rintro ⟨n, hn, hP⟩
          exact ⟨n, List.mem_cons_of_mem _ hn, hP⟩
        · rintro ⟨n, hn, hP⟩
          cases hn with
          | head =>
            rcases hP with ⟨t2, _, hlab, _⟩
            exact absurd hlab (by simp [NavPoint.label])
          | tail _ hn => exact ⟨n, hn, hP⟩
      | some t =>
        rw [show parseNcxEntries (NavPoint.mk (some s) (some t) pchildren :: rest) =
            (if (jsTrim t).isEmpty then parseNcxEntries rest
             else ⟨s, jsTrim t⟩ :: parseNcxEntries rest) from rfl]
        by_cases ht : (jsTrim t).isEmpty = true
        · have ht2 : jsTrim t = [] := by simpa using ht
          rw [if_pos ht, ih]
          constructor
          · rintro ⟨n, hn, hP⟩
            exact ⟨n, List.mem_cons_of_mem _ hn, hP⟩
          · rintro ⟨n, hn, hP⟩
            cases hn with
            | head =>
              rcases hP with ⟨t2, _, hlab, hne, _⟩
              simp only [NavPoint.label, Option.some.injEq] at hlab
              subst hlab
              exact absurd ht2 hne
            | tail _ hn => exact ⟨n, hn, hP⟩
        · have ht2 : jsTrim t ≠ [] := by simpa using ht
          rw [if_neg ht, List.mem_cons, ih]
          constructor
          · rintro (he | ⟨n, hn, hP⟩)
            · injection he with h1 h2
              subst h1; subst h2
              exact ⟨_, List.mem_cons_self _ _, t, rfl, rfl, ht2, rfl⟩
            · exact ⟨n, List.mem_cons_of_mem _ hn, hP⟩
          · rintro ⟨n, hn, t2, hsrc, hlab, hne, hti⟩
            cases hn with
            | head =>
              simp only [NavPoint.src, NavPoint.label, Option.some.injEq]
                at hsrc hlab hti
              subst hlab
              exact Or.inl (by rw [hti, hsrc])
            | tail _ hn => exact Or.inr ⟨n, hn, t2, hsrc, hlab, hne, hti⟩

/-! ### TOC-constrained spine selection (claim C4) -/

/-- Claim C4: with a non-empty TOC entry set, the selected chapter hrefs
are the order-preserving filter of the reading order down to the entries
whose normalized href is in the set — unless that filter is empty, in
which case the full reading order is used unchanged. -/
theorem chapterHrefs_toc_filter (inp : EpubInput)
    (h : preferredHrefSetOf inp ≠ []) :
    chapterHrefsOf inp =
      if inp.spineHrefs.filter
          (fun href => (preferredHrefSetOf inp).contains (normalizeHrefKey href)) = []
      then inp.spineHrefs
      else inp.spineHrefs.filter
          (fun href => (preferredHrefSetOf inp).contains (normalizeHrefKey href)) := by
  have hlen : 0 < (preferredHrefSetOf inp).length := List.length_pos.mpr h
  simp only [chapterHrefsOf, tocMatchedSpineHrefsOf, if_pos hlen]
  by_cases hf : inp.spineHrefs.filter
      (fun href => (preferredHrefSetOf inp).contains (normalizeHrefKey href)) = []
  · rw [if_pos hf, hf, if_neg (by simp)]
  · rw [if_neg hf, if_pos (List.length_pos.mpr hf)]

/-- A TOC listing only `ch1.xhtml` against a two-entry spine. -/
def inpC4 : EpubInput :=
  { navEntries := [⟨"ch1.xhtml".data, "One".data⟩]
    ncxRoots := []
    spineHrefs := ["ch1.xhtml".data, "ch2.xhtml".data]
    fetch := fun _ => none
    render := fun s => s
    nfkd := id }

/-- Claim C4, witness: the TOC filter keeps exactly the matched spine
entry. -/
theorem chapterHrefs_toc_filter_witness :
    preferredHrefSetOf inpC4 ≠ [] ∧
      chapterHrefsOf inpC4 =
        (if inpC4.spineHrefs.filter
            (fun href =>
              (preferredHrefSetOf inpC4).contains (normalizeHrefKey href)) = []
        then inpC4.spineHrefs
        else inpC4.spineHrefs.filter
            (fun href =>
              (preferredHrefSetOf inpC4).contains (normalizeHrefKey href))) :=
  ⟨by decide, chapterHrefs_toc_filter inpC4 (by decide)⟩

/-! ### The empty-result error dispatch (claim C9) -/

theorem buildChapters_flag (inp : EpubInput) (opts : ParseOptions)
    (titleMap : List (Str × Str)) (tc : Bool) :
    ∀ (i : Nat) (hrefs : List Str),
      (buildChapters inp opts titleMap tc i hrefs).2 = true ↔
        (opts.stripImages = true ∧
          ∃ href ∈ hrefs, droppedImageOnly inp href = true) := by
  intro i hrefs
  induction hrefs generalizing i with
  | nil => simp [buildChapters]
  | cons href rest ih =>
    simp only [buildChapters]
    split
    next hfe =>
      rw [ih (i + 1)]
      have hdo : droppedImageOnly inp href = false := by
        unfold droppedImageOnly; rw [hfe]
      constructor
      · rintro ⟨hs, h, hm, hd⟩; exact ⟨hs, h, List.mem_cons_of_mem _ hm, hd⟩
      · rintro ⟨hs, h, hm, hd⟩
        cases hm with
        | head => rw [hdo] at hd; cases hd
        | tail _ hm => exact ⟨hs, h, hm, hd⟩
    next html hfe =>
      have hdo : droppedImageOnly inp href =
          ((inp.render html).isEmpty && hasImgTag html) := by
        unfold droppedImageOnly; rw [hfe]
      by_cases hmd : (inp.render html).isEmpty = true
      · rw [if_pos hmd]
        simp only [Bool.or_eq_true, Bool.and_eq_true, ih (i + 1)]
        constructor
        · rintro (⟨hs, h, hm, hd⟩ | ⟨hs, himg⟩)
          · exact ⟨hs, h, List.mem_cons_of_mem _ hm, hd⟩
          · refine ⟨hs, href, List.mem_cons_self _ _, ?_⟩
            simp [hdo, hmd, himg]
        · rintro ⟨hs, h, hm, hd⟩
          cases hm with
          | head =>
            rw [hdo, Bool.and_eq_true] at hd
            exact Or.inr ⟨hs, hd.2⟩
          | tail _ hm => exact Or.inl ⟨hs, h, hm, hd⟩
      · rw [if_neg hmd]
        have hsnd : ∀ (c : Prop) [Decidable c] (a : List Chapter × Bool)
            (x : Chapter),
            (if c then a else (x :: a.1, a.2)).2 = a.2 := by
          intro c _ a x
          split <;> rfl
        rw [hsnd]
        rw [ih (i + 1)]
        constructor
        · rintro ⟨hs, h, hm, hd⟩; exact ⟨hs, h, List.mem_cons_of_mem _ hm, hd⟩
        · rintro ⟨hs, h, hm, hd⟩
          cases hm with
          | head =>
            rw [hdo, Bool.and_eq_true] at hd
            exact absurd hd.1 hmd
          | tail _ hm => exact ⟨hs, h, hm, hd⟩

/-- Claim C9: when no chapter survives, the run fails; the failure is the
image-only/OCR error exactly when image stripping is on and some selected
entry rendered to empty markdown while its markup contained an image tag,
and the generic no-content error otherwise. -/
theorem parseEpub_error_dispatch (inp : EpubInput) (opts : ParseOptions)
    (h : survivorsOf inp opts = []) :
    parseEpubToChaptersModel inp opts =
      .error
        (if opts.stripImages = true ∧
            ∃ href ∈ chapterHrefsOf inp, droppedImageOnly inp href = true
          then .imageOnlyOcrRequired else .noChapterContent) := by
  simp only [parseEpubToChaptersModel]
  rw [if_pos (by simp [h])]
  have hf := buildChapters_flag inp opts
    (toTocLabelMap (preferredTocEntriesOf inp))
    (!(preferredHrefSetOf inp).isEmpty) 0 (chapterHrefsOf inp)
  simp only [assembledOf]
  exact congrArg Except.error (if_congr hf rfl rfl)

/-- A spine whose only entry is image-only markup rendering to empty
markdown. -/
def inpC9 : EpubInput :=
  { navEntries := []
    ncxRoots := []
    spineHrefs := ["img.xhtml".data]
    fetch := fun _ => some "<img src=cover.png>".data
    render := fun _ => []
    nfkd := id }

/-- Claim C9, witness: the image-only input yields the OCR-required
error. -/
theorem parseEpub_error_dispatch_witness :
    survivorsOf inpC9 DEFAULT_PARSE_OPTIONS = [] ∧
      parseEpubToChaptersModel inpC9 DEFAULT_PARSE_OPTIONS =
        .error
          (if DEFAULT_PARSE_OPTIONS.stripImages = true ∧
              ∃ href ∈ chapterHrefsOf inpC9,
                droppedImageOnly inpC9 href = true
            then .imageOnlyOcrRequired else .noChapterContent) :=
  ⟨by decide, parseEpub_error_dispatch inpC9 DEFAULT_PARSE_OPTIONS (by decide)⟩

/-! ### The slug round trip (claim C10) -/

/-- Claim C10: for any normalizer that is the identity on ASCII (as
`normalize("NFKD")` is), `slugify` maps `" Chapter: One! "` to
`"chapter-one"`, and applying it twice gives the same result as applying
it once. -/
theorem slugify_roundtrip (nfkd : Str → Str)
    (hn : ∀ l : Str, (∀ c ∈ l, c.toNat < 128) → nfkd l = l) :
    slugifyCore nfkd " Chapter: One! ".data = "chapter-one".data ∧
      ∀ s : Str, slugifyCore nfkd (slugifyCore nfkd s) = slugifyCore nfkd s := by
  constructor
  · rw [slugifyCore_eq_id (hn _ (by decide))]
    decide
  · intro s
    exact slugify_idem hn s

/-- Claim C10, witness: instantiated at the identity normalizer. -/
theorem slugify_roundtrip_witness :
    (∀ l : Str, (∀ c ∈ l, c.toNat < 128) → id l = l) ∧
      (slugifyCore id " Chapter: One! ".data = "chapter-one".data ∧
        ∀ s : Str, slugifyCore id (slugifyCore id s) = slugifyCore id s) :=
  ⟨fun _ _ => rfl, slugify_roundtrip id fun _ _ => rfl⟩

end Injectbook
